import Mathlib

/-!
# Verification of the GSMS core (gsms/gsms.py)

A shallow embedding of the path/command normalization core of GSMS
(`known_path_to_absolute`, `add_game`, `has_app`, `get_win_path`) into Lean,
together with theorems checking the natural-language specification against it.

Strings are modelled as `List Char`.  The program runs on Windows only
(it loads `ctypes.windll`), so `os.sep` is `'\\'` and `os.path.join` is
`ntpath.join`; both are embedded below.  The two platform calls
(`SHGetKnownFolderPath` inside `get_win_path`, and `get_win_path` itself inside
`known_path_to_absolute`) are abstracted as function parameters.
-/

namespace GSMS

/-- Strings of the embedded program. -/
abbrev Str := List Char

/-! ## Python string primitives used by the source -/

/-- `os.sep` on Windows. -/
def sep : Char := '\\'

/-- ASCII whitespace stripped by Python's `str.strip()` / `int()`
(`' '`, `\t`, `\n`, `\r`, `\x0b`, `\x0c`); the source never feeds it
non-ASCII whitespace. -/
def pyWs (c : Char) : Bool :=
  c == ' ' || c == '\t' || c == '\n' || c == '\r' || c == '\x0b' || c == '\x0c'

/-- Python `str.strip()` (ASCII whitespace). -/
def pyStrip (s : Str) : Str :=
  ((s.dropWhile pyWs).reverse.dropWhile pyWs).reverse

/-- Python `str.lower()` (the inputs at hand are ASCII). -/
def pyLower (s : Str) : Str := s.map Char.toLower

/-- The loop `while s.endswith(os.sep): s = s[:-1]` from `add_game`. -/
def rstripSep (s : Str) : Str :=
  (s.reverse.dropWhile (fun c => c == sep)).reverse

/-- The loop `while s.startswith(os.sep): s = s[1:]` from `add_game`. -/
def lstripSep (s : Str) : Str :=
  s.dropWhile (fun c => c == sep)

/-- Python `s.replace('"', '')`. -/
def stripQuotes (s : Str) : Str :=
  s.filter (fun c => c != '"')

/-- Python's substring test `pat in s`. -/
def containsSub (pat s : Str) : Bool :=
  s.tails.any (fun t => pat.isPrefixOf t)

/-- Fuel-indexed scanner for `replaceAll`; the fuel (an upper bound on the
string length, consumed one unit per character examined) only makes the
recursion structural and never runs out when `s.length ≤ fuel`. -/
def replaceAllAux (pat rep : Str) : Nat → Str → Str
  | _, [] => []
  | 0, s => s
  | fuel + 1, c :: cs =>
    if pat ≠ [] ∧ pat.isPrefixOf (c :: cs) then
      rep ++ replaceAllAux pat rep fuel (cs.drop (pat.length - 1))
    else
      c :: replaceAllAux pat rep fuel cs

/-- Python `str.replace(pat, rep)` for a non-empty pattern: scan left to
right, replace each non-overlapping occurrence, never rescanning the
replacement.  (The program only ever calls `replace` with non-empty
patterns; an empty pattern is returned unchanged here.) -/
def replaceAll (pat rep s : Str) : Str :=
  replaceAllAux pat rep s.length s

/-! ## The symbolic-folder regex of `known_path_to_absolute`

`re.compile(r"^::(\{[\da-fA-F]{8}-[\da-fA-F]{4}-[\da-fA-F]{4}-[\da-fA-F]{4}-[\da-fA-F]{12}})")`.
The pattern is anchored, so `findall` returns at most one match: exactly one
when the 40-character token `::{8-4-4-4-12}` sits at position zero. -/

/-- `[\da-fA-F]`. -/
def isHexDigit (c : Char) : Bool :=
  c.isDigit || ('a' ≤ c && c ≤ 'f') || ('A' ≤ c && c ≤ 'F')

/-- Single-character pattern position. -/
def chr (c : Char) : Char → Bool := fun d => d == c

/-- The 40 character positions of the anchored pattern `::{8-4-4-4-12}`. -/
def uuidPat : List (Char → Bool) :=
  [chr ':', chr ':', chr '{'] ++ List.replicate 8 isHexDigit ++ [chr '-'] ++
  List.replicate 4 isHexDigit ++ [chr '-'] ++ List.replicate 4 isHexDigit ++ [chr '-'] ++
  List.replicate 4 isHexDigit ++ [chr '-'] ++ List.replicate 12 isHexDigit ++ [chr '}']

/-- Positional match of a list of character predicates at the head of a string. -/
def matchesAt : List (Char → Bool) → Str → Bool
  | [], _ => true
  | _ :: _, [] => false
  | p :: ps, c :: cs => p c && matchesAt ps cs

/-- `len(regex.findall(path)) == 1`: the anchored pattern matches at position 0. -/
def knownMatch (s : Str) : Bool := matchesAt uuidPat s

/-- The captured group `{…}` (characters 2–39 of the matched token). -/
def uuidGroup (s : Str) : Str := (s.drop 2).take 38

/-- The full matched token `::{…}` (the first 40 characters). -/
def uuidToken (s : Str) : Str := s.take 40

/-- `known_path_to_absolute` from gsms/gsms.py, with the platform resolver
`get_win_path` abstracted as the parameter `winPath` (its argument is the
captured group).  When the anchored pattern matches, the source executes
`path.replace("::" + group, get_win_path(group))`. -/
def known_path_to_absolute (winPath : Str → Str) (path : Str) : Str :=
  if knownMatch path then
    replaceAll (':' :: ':' :: uuidGroup path) (winPath (uuidGroup path)) path
  else
    path

/-! ## `ntpath.splitdrive` and the 2-argument `ntpath.join`

The program calls `os.path.join(working_dir, cmd)` on Windows. -/

/-- First index `≥ i` (in absolute terms) at which `p` holds, scanning `l`
whose first element sits at absolute index `i`. -/
def findFrom (p : Char → Bool) : Str → Nat → Option Nat
  | [], _ => none
  | c :: cs, i => if p c then some i else findFrom p cs (i + 1)

/-- Index of the first `'\\'` in `s` at or after `start`
(`normp.find(sep, start)`). -/
def findSepFrom (s : Str) (start : Nat) : Option Nat :=
  findFrom (fun c => c == '\\') (s.drop start) start

/-- `normp = p.replace(altsep, sep)` from `ntpath.splitdrive`. -/
def normSeps (p : Str) : Str := p.map (fun c => if c == '/' then '\\' else c)

/-- `start = 8 if normp[:8].upper() == unc_prefix else 2`. -/
def uncStart (normp : Str) : Nat :=
  if (normp.take 8).map Char.toUpper = "\\\\?\\UNC\\".data then 8 else 2

/-- The UNC/device arm of `ntpath.splitdrive`: find the separator ending the
host part, then the one ending the share part. -/
def uncSplit (p normp : Str) (start : Nat) : Str × Str :=
  match findSepFrom normp start with
  | none => (p, [])
  | some index =>
    match findSepFrom normp (index + 1) with
    | none => (p, [])
    | some index2 => (p.take index2, p.drop index2)

/-- `ntpath.splitdrive` (CPython 3.11). -/
def splitdrive (p : Str) : Str × Str :=
  if p.length ≥ 2 then
    if (normSeps p).take 2 = ['\\', '\\'] then
      -- UNC drives (\\server\share, \\?\UNC\server\share) and device drives
      uncSplit p (normSeps p) (uncStart (normSeps p))
    else if (normSeps p).get? 1 = some ':' then (p.take 2, p.drop 2)
    else ([], p)
  else ([], p)

/-- The relative-append step of `ntpath.join`:
`if result_path and result_path[-1] not in seps: result_path += sep`,
then `result_path += p_path`. -/
def appendRel (rp pp : Str) : Str :=
  if rp ≠ [] ∧ rp.getLast? ≠ some '\\' ∧ rp.getLast? ≠ some '/' then
    rp ++ '\\' :: pp
  else
    rp ++ pp

/-- The `(result_drive, result_path)` pair after the single loop iteration of
`ntpath.join(path, b)`. -/
def ntJoinRes (path b : Str) : Str × Str :=
  if (splitdrive b).2 ≠ [] ∧
     ((splitdrive b).2.head? = some '\\' ∨ (splitdrive b).2.head? = some '/') then
    -- second path is absolute
    (if (splitdrive b).1 ≠ [] ∨ (splitdrive path).1 = [] then (splitdrive b).1
     else (splitdrive path).1,
     (splitdrive b).2)
  else if (splitdrive b).1 ≠ [] ∧ (splitdrive b).1 ≠ (splitdrive path).1 then
    if pyLower (splitdrive b).1 ≠ pyLower (splitdrive path).1 then
      -- different drives: ignore the first path entirely
      ((splitdrive b).1, (splitdrive b).2)
    else
      -- same drive in different case
      ((splitdrive b).1, appendRel (splitdrive path).2 (splitdrive b).2)
  else
    -- second path is relative to the first
    ((splitdrive path).1, appendRel (splitdrive path).2 (splitdrive b).2)

/-- `ntpath.join(path, b)` (one extra component, the only form the program
uses): the loop body above, followed by the final "separator between UNC
and non-absolute path" fix-up. -/
def ntJoin (path b : Str) : Str :=
  if (ntJoinRes path b).2 ≠ [] ∧ (ntJoinRes path b).2.head? ≠ some '\\' ∧
     (ntJoinRes path b).2.head? ≠ some '/' ∧
     (ntJoinRes path b).1 ≠ [] ∧ (ntJoinRes path b).1.getLast? ≠ some ':' then
    (ntJoinRes path b).1 ++ '\\' :: (ntJoinRes path b).2
  else
    (ntJoinRes path b).1 ++ (ntJoinRes path b).2

/-! ## The command normalizer inside `add_game` (gsms.py lines 244–290) -/

/-- Lines 244–257 applied to `working_dir`: resolve the symbolic prefix,
strip trailing separators, strip quotes. -/
def resolvedWd (winPath : Str → Str) (working_dir : Str) : Str :=
  stripQuotes (rstripSep (known_path_to_absolute winPath working_dir))

/-- Lines 244–257 applied to `cmd`: resolve the symbolic prefix,
strip leading separators, strip quotes. -/
def resolvedCmd (winPath : Str → Str) (cmd : Str) : Str :=
  stripQuotes (lstripSep (known_path_to_absolute winPath cmd))

/-- Line 262: `cmd.lower().startswith("start")`. -/
def startsWithStartCI (c : Str) : Bool :=
  "start".data.isPrefixOf (pyLower c)

/-- Lines 262–264: when the `start` rule fires, `cmd = cmd[5:].strip()`. -/
def startStripped (c : Str) : Str :=
  if startsWithStartCI c then pyStrip (c.drop 5) else c

/-- Result of normalizing one command / working-directory pair. -/
structure NormResult where
  workingDir : Str
  cmd : Str
  detached : Bool
deriving DecidableEq

/-- Lines 244–275 of `add_game`: the full command normalizer.
`detached` is set by the `start` rule and/or the URI rule; the URI and
working-directory-prefix tests run on the possibly start-stripped command. -/
def normalize (winPath : Str → Str) (cmd working_dir : Str) : NormResult :=
  if containsSub "://".data (startStripped (resolvedCmd winPath cmd)) then
    { workingDir := resolvedWd winPath working_dir
      cmd := if containsSub "steam://".data (startStripped (resolvedCmd winPath cmd)) then
               "steam ".data ++ startStripped (resolvedCmd winPath cmd)
             else startStripped (resolvedCmd winPath cmd)
      detached := true }
  else
    { workingDir := resolvedWd winPath working_dir
      cmd := if (resolvedWd winPath working_dir).isPrefixOf
                  (startStripped (resolvedCmd winPath cmd)) then
               startStripped (resolvedCmd winPath cmd)
             else ntJoin (resolvedWd winPath working_dir)
                    (startStripped (resolvedCmd winPath cmd))
      detached := startsWithStartCI (resolvedCmd winPath cmd) }

/-! ## The registry (`apps.json`), `has_app` and `add_game` -/

/-- One entry of the registry's `apps` list.  Exactly the keys `add_game`
writes; `cmd` and `detached` are optional keys of the JSON object. -/
structure App where
  name : Str
  output : Str
  workingDir : Str
  imagePath : Str
  cmd : Option Str
  detached : Option (List Str)
deriving DecidableEq

/-- The `sunshine_apps` JSON object: the `apps` list plus the passthrough
fields the program never touches (e.g. `env`), modelled opaquely. -/
structure SunshineApps where
  apps : List App
  passthrough : List (Str × Str)
deriving DecidableEq

/-- `has_app` (gsms.py lines 188–217): linear scan with exact string
equality on `name`, first match short-circuits. -/
def has_app (sunshine_apps : SunshineApps) (name : Str) : Bool :=
  sunshine_apps.apps.any (fun existing_app => name == existing_app.name)

/-- The entry `add_game` builds (lines 277–288). -/
def gameEntry (winPath : Str → Str) (name logfile cmd working_dir image_path : Str) : App :=
  let r := normalize winPath cmd working_dir
  { name := name
    output := logfile
    workingDir := r.workingDir
    imagePath := image_path
    cmd := if r.detached then none else some r.cmd
    detached := if r.detached then some [r.cmd] else none }

/-- `add_game` (gsms.py lines 220–290): normalize, build the entry, append. -/
def add_game (winPath : Str → Str) (sunshine_apps : SunshineApps)
    (name logfile cmd working_dir image_path : Str) : SunshineApps :=
  { sunshine_apps with
    apps := sunshine_apps.apps ++ [gameEntry winPath name logfile cmd working_dir image_path] }

/-! ## `get_win_path` (gsms.py lines 120–162)

`get_win_path` first parses its argument with `uuid.UUID(folder_id)` — a
`ValueError` here is the spec's `InvalidIdentifier` — and only then calls
`SHGetKnownFolderPath`; a non-zero `HRESULT` raises `NotADirectoryError`,
the spec's `FolderNotFound`.  The system call is abstracted as `oracle`,
keyed on the parsed 128-bit value (`none` models a non-zero `HRESULT`). -/

/-- Value of an ASCII hex digit (`int(…, 16)` digit set). -/
def hexVal? (c : Char) : Option Nat :=
  if c.isDigit then some (c.toNat - 48)
  else if 'a' ≤ c && c ≤ 'f' then some (c.toNat - 87)
  else if 'A' ≤ c && c ≤ 'F' then some (c.toNat - 55)
  else none

/-- Digits of `int(…, 16)` after the first one: single underscores are
allowed between digits, not trailing and not doubled. -/
def parseHexTail (acc : Nat) : Str → Option Nat
  | [] => some acc
  | '_' :: c :: cs =>
    match hexVal? c with
    | some v => parseHexTail (acc * 16 + v) cs
    | none => none
  | ['_'] => none
  | c :: cs =>
    match hexVal? c with
    | some v => parseHexTail (acc * 16 + v) cs
    | none => none

/-- A non-empty run of hex digits with single underscore separators. -/
def parseHexNum : Str → Option Nat
  | [] => none
  | c :: cs =>
    match hexVal? c with
    | some v => parseHexTail v cs
    | none => none

/-- `int(s, 16)` after sign removal: an optional `0x`/`0X` prefix (an
underscore may directly follow the prefix), then digits. -/
def pyIntHexCore : Str → Option Nat
  | '0' :: 'x' :: '_' :: rest => parseHexNum rest
  | '0' :: 'x' :: rest => parseHexNum rest
  | '0' :: 'X' :: '_' :: rest => parseHexNum rest
  | '0' :: 'X' :: rest => parseHexNum rest
  | s => parseHexNum s

/-- Python `int(s, 16)`: surrounding whitespace, an optional sign, then the
prefixed digit run (ASCII inputs). -/
def pyIntHex? (s : Str) : Option Int :=
  match pyStrip s with
  | '+' :: r => (pyIntHexCore r).map Int.ofNat
  | '-' :: r => (pyIntHexCore r).map (fun n => -(n : Int))
  | r => (pyIntHexCore r).map Int.ofNat

/-- `'{'` or `'}'`, the set stripped by `hex.strip('{}')`. -/
def isBrace (c : Char) : Bool := c == '{' || c == '}'

/-- `uuid.UUID(hex=s)` (CPython): remove every `urn:` and `uuid:`, strip
braces from both ends, remove every `-`, require exactly 32 characters,
parse as a base-16 integer and require a 128-bit value.  `none` models the
`ValueError` cases. -/
def parseUUID (s : Str) : Option Nat :=
  let h1 := replaceAll "urn:".data [] s
  let h2 := replaceAll "uuid:".data [] h1
  let h3 := ((h2.dropWhile isBrace).reverse.dropWhile isBrace).reverse
  let h4 := replaceAll "-".data [] h3
  if h4.length = 32 then
    match pyIntHex? h4 with
    | some i => if 0 ≤ i ∧ i < (2 : Int) ^ 128 then some i.toNat else none
    | none => none
  else none

/-- The two failure modes of the Resolver (§4.1 of the spec):
`InvalidIdentifier` is the `ValueError` escaping `UUID(folder_id)`,
`FolderNotFound` the `NotADirectoryError` raised on a failing system call. -/
inductive ResolveError where
  | invalidIdentifier
  | folderNotFound
deriving DecidableEq

/-- `get_win_path` with the `SHGetKnownFolderPath` call abstracted as
`oracle`. -/
def get_win_path (oracle : Nat → Option Str) (folder_id : Str) :
    Except ResolveError Str :=
  match parseUUID folder_id with
  | none => Except.error ResolveError.invalidIdentifier
  | some u =>
    match oracle u with
    | none => Except.error ResolveError.folderNotFound
    | some path => Except.ok path

/-- Modelled from the spec: an identifier in "canonical text form, with or
without surrounding braces" (§3, §4.1) — the dashed `8-4-4-4-12` hex form.
Used only to state claims that speak about canonical form. -/
def canonPat : List (Char → Bool) :=
  List.replicate 8 isHexDigit ++ [chr '-'] ++ List.replicate 4 isHexDigit ++ [chr '-'] ++
  List.replicate 4 isHexDigit ++ [chr '-'] ++ List.replicate 4 isHexDigit ++ [chr '-'] ++
  List.replicate 12 isHexDigit

/-- Modelled from the spec: canonical text form, with or without braces. -/
def canonicalUUID (s : Str) : Bool :=
  (s.length = 36 && matchesAt canonPat s) ||
  (s.length = 38 && s.head? == some '{' && s.getLast? == some '}' &&
    matchesAt canonPat ((s.drop 1).take 36))

/-! ## Supporting lemmas -/

theorem lstripSep_eq_self {s : Str} (h : s.head? ≠ some '\\') : lstripSep s = s := by
  unfold lstripSep
  cases s with
  | nil => rfl
  | cons c cs =>
    have hc : (c == sep) = false := by
      simp only [List.head?_cons, ne_eq, Option.some.injEq] at h
      simpa [sep] using h
    simp [List.dropWhile, hc]

theorem head?_dropWhile_false {p : Char → Bool} :
    ∀ {l : Str} {c : Char}, (l.dropWhile p).head? = some c → p c = false := by
  intro l
  induction l with
  | nil => intro c h; simp [List.dropWhile] at h
  | cons x xs ih =>
    intro c h
    by_cases hx : p x
    · rw [List.dropWhile_cons_of_pos hx] at h
      exact ih h
    · rw [List.dropWhile_cons_of_neg hx] at h
      simp only [List.head?_cons, Option.some.injEq] at h
      subst h
      simpa using hx

theorem rstripSep_eq_self {s : Str} (h : s.getLast? ≠ some '\\') : rstripSep s = s := by
  unfold rstripSep
  have hrev : s.reverse.head? ≠ some '\\' := by
    rw [List.head?_reverse]; exact h
  have : s.reverse.dropWhile (fun c => c == sep) = s.reverse := by
    cases hs : s.reverse with
    | nil => rfl
    | cons c cs =>
      have hc : (c == sep) = false := by
        rw [hs] at hrev
        simp only [List.head?_cons, ne_eq, Option.some.injEq] at hrev
        simpa [sep] using hrev
      simp [List.dropWhile, hc]
  rw [this, List.reverse_reverse]

theorem rstripSep_getLast? (s : Str) : (rstripSep s).getLast? ≠ some '\\' := by
  unfold rstripSep
  rw [List.getLast?_reverse]
  intro h
  have := head?_dropWhile_false h
  simp [sep] at this

theorem stripQuotes_eq_self {s : Str} (h : ∀ c ∈ s, c ≠ '"') : stripQuotes s = s := by
  unfold stripQuotes
  rw [List.filter_eq_self]
  intro a ha
  simpa using h a ha

theorem not_mem_stripQuotes (s : Str) : '"' ∉ stripQuotes s := by
  unfold stripQuotes
  intro h
  have := (List.mem_filter.mp h).2
  simp at this

theorem mem_stripQuotes {c : Char} {s : Str} (h : c ∈ stripQuotes s) : c ∈ s :=
  (List.mem_filter.mp h).1

theorem known_path_to_absolute_eq_self {f : Str → Str} {p : Str}
    (h : knownMatch p = false) : known_path_to_absolute f p = p := by
  unfold known_path_to_absolute
  simp [h]

theorem resolvedCmd_eq_self {f : Str → Str} {cmd : Str}
    (hm : knownMatch cmd = false) (hh : cmd.head? ≠ some '\\')
    (hq : ∀ c ∈ cmd, c ≠ '"') : resolvedCmd f cmd = cmd := by
  unfold resolvedCmd
  rw [known_path_to_absolute_eq_self hm, lstripSep_eq_self hh, stripQuotes_eq_self hq]

theorem resolvedWd_eq_self {f : Str → Str} {wd : Str}
    (hm : knownMatch wd = false) (hl : wd.getLast? ≠ some '\\')
    (hq : ∀ c ∈ wd, c ≠ '"') : resolvedWd f wd = wd := by
  unfold resolvedWd
  rw [known_path_to_absolute_eq_self hm, rstripSep_eq_self hl, stripQuotes_eq_self hq]

theorem normalize_uri {w : Str → Str} {cmd wd : Str}
    (h : containsSub "://".data (startStripped (resolvedCmd w cmd)) = true) :
    normalize w cmd wd =
      ⟨resolvedWd w wd,
       if containsSub "steam://".data (startStripped (resolvedCmd w cmd)) then
         "steam ".data ++ startStripped (resolvedCmd w cmd)
       else startStripped (resolvedCmd w cmd),
       true⟩ := by
  simp only [normalize, h, if_true]

theorem normalize_not_uri {w : Str → Str} {cmd wd : Str}
    (h : containsSub "://".data (startStripped (resolvedCmd w cmd)) = false) :
    normalize w cmd wd =
      ⟨resolvedWd w wd,
       if (resolvedWd w wd).isPrefixOf (startStripped (resolvedCmd w cmd)) then
         startStripped (resolvedCmd w cmd)
       else ntJoin (resolvedWd w wd) (startStripped (resolvedCmd w cmd)),
       startsWithStartCI (resolvedCmd w cmd)⟩ := by
  simp only [normalize, h, Bool.false_eq_true, if_false]

/-! ## Claim theorems -/

set_option maxRecDepth 40000

/-- Claim C1, counterexample.  The code tests `cmd.lower().startswith("start")`
with no whitespace requirement, so `startup.exe` — which the claim says is
left intact — is marked detached and truncated to `up.exe`. -/
theorem claim1_counterexample :
    (normalize (fun s => s) "startup.exe".data []).detached = true ∧
    (normalize (fun s => s) "startup.exe".data []).cmd = "up.exe".data := by
  decide

/-- Claim C1 as amended: the normalizer marks the command detached and strips
the first five characters (then surrounding whitespace) exactly when the
quote-stripped, separator-trimmed command begins case-insensitively with the
five characters `start`, regardless of what follows them. -/
theorem claim1_amended (w : Str → Str) (cmd wd : Str) :
    (startsWithStartCI (resolvedCmd w cmd) = true →
      (normalize w cmd wd).detached = true ∧
      startStripped (resolvedCmd w cmd) = pyStrip ((resolvedCmd w cmd).drop 5)) ∧
    (startsWithStartCI (resolvedCmd w cmd) = false →
      startStripped (resolvedCmd w cmd) = resolvedCmd w cmd) := by
  constructor
  · intro h
    refine ⟨?_, by simp [startStripped, h]⟩
    by_cases hu : containsSub "://".data (startStripped (resolvedCmd w cmd)) = true
    · rw [normalize_uri hu]
    · rw [normalize_not_uri (Bool.eq_false_iff.mpr hu)]
      exact h
  · intro h
    simp [startStripped, h]

/-- Witness for `claim1_amended` at `start game.exe`. -/
theorem claim1_amended_witness :
    (normalize (fun s => s) "start game.exe".data []).detached = true ∧
    startStripped (resolvedCmd (fun s => s) "start game.exe".data) =
      pyStrip ((resolvedCmd (fun s => s) "start game.exe".data).drop 5) :=
  (claim1_amended (fun s => s) "start game.exe".data []).1 (by decide)

/-- Claim C2, counterexample.  The code tests `'steam://' in cmd` by
substring containment, so a non-steam URI that merely contains `steam://`
in a query parameter — which the claim says receives no executable
prefix — still gets `steam ` prepended. -/
theorem claim2_counterexample :
    (normalize (fun s => s) "https://example.com/?u=steam://x".data []).detached = true ∧
    (normalize (fun s => s) "https://example.com/?u=steam://x".data []).cmd =
      "steam https://example.com/?u=steam://x".data := by
  decide

/-- Claim C2 as amended: a command containing `://` (after the `start` rule)
is marked detached, and `steam ` is prepended if and only if the command
contains the substring `steam://` anywhere — not only when it begins with
that scheme. -/
theorem claim2_amended (w : Str → Str) (cmd wd : Str) :
    (containsSub "://".data (startStripped (resolvedCmd w cmd)) = true →
      (normalize w cmd wd).detached = true ∧
      (containsSub "steam://".data (startStripped (resolvedCmd w cmd)) = true →
        (normalize w cmd wd).cmd =
          "steam ".data ++ startStripped (resolvedCmd w cmd)) ∧
      (containsSub "steam://".data (startStripped (resolvedCmd w cmd)) = false →
        (normalize w cmd wd).cmd = startStripped (resolvedCmd w cmd))) := by
  intro h
  rw [normalize_uri h]
  refine ⟨rfl, fun hs => by simp [hs], fun hs => by simp [hs]⟩

/-- Witness for `claim2_amended` at a non-steam URI. -/
theorem claim2_amended_witness :
    (normalize (fun s => s) "https://example.com/page".data []).detached = true ∧
    (containsSub "steam://".data (startStripped (resolvedCmd (fun s => s) "https://example.com/page".data)) = true →
      (normalize (fun s => s) "https://example.com/page".data []).cmd =
        "steam ".data ++ startStripped (resolvedCmd (fun s => s) "https://example.com/page".data)) ∧
    (containsSub "steam://".data (startStripped (resolvedCmd (fun s => s) "https://example.com/page".data)) = false →
      (normalize (fun s => s) "https://example.com/page".data []).cmd =
        startStripped (resolvedCmd (fun s => s) "https://example.com/page".data)) :=
  claim2_amended (fun s => s) "https://example.com/page".data [] (by decide)

/-- Claim C5 (confirmed): a command that triggers neither the `start` rule
nor the URI rule is never detached, and is joined with the working
directory exactly when it does not already start with it under the plain
string-prefix test; in particular the spec's `C:\Games\Foo` example is
emitted without a join. -/
theorem claim5 (w : Str → Str) (cmd wd : Str)
    (hstart : startsWithStartCI (resolvedCmd w cmd) = false)
    (huri : containsSub "://".data (resolvedCmd w cmd) = false) :
    (normalize w cmd wd).detached = false ∧
    (normalize w cmd wd).cmd =
      (if (resolvedWd w wd).isPrefixOf (resolvedCmd w cmd) then resolvedCmd w cmd
       else ntJoin (resolvedWd w wd) (resolvedCmd w cmd)) ∧
    normalize (fun s => s) "C:\\Games\\Foo\\Foo.exe".data "C:\\Games\\Foo".data =
      ⟨"C:\\Games\\Foo".data, "C:\\Games\\Foo\\Foo.exe".data, false⟩ := by
  have hss : startStripped (resolvedCmd w cmd) = resolvedCmd w cmd := by
    simp [startStripped, hstart]
  have hu : containsSub "://".data (startStripped (resolvedCmd w cmd)) = false := by
    rw [hss]; exact huri
  rw [normalize_not_uri hu, hss]
  exact ⟨hstart, rfl, by decide⟩

/-- Witness for `claim5` at the spec's worked example. -/
theorem claim5_witness :
    (normalize (fun s => s) "C:\\Games\\Foo\\Foo.exe".data "C:\\Games\\Foo".data).detached = false ∧
    (normalize (fun s => s) "C:\\Games\\Foo\\Foo.exe".data "C:\\Games\\Foo".data).cmd =
      (if (resolvedWd (fun s => s) "C:\\Games\\Foo".data).isPrefixOf
            (resolvedCmd (fun s => s) "C:\\Games\\Foo\\Foo.exe".data) then
         resolvedCmd (fun s => s) "C:\\Games\\Foo\\Foo.exe".data
       else ntJoin (resolvedWd (fun s => s) "C:\\Games\\Foo".data)
              (resolvedCmd (fun s => s) "C:\\Games\\Foo\\Foo.exe".data)) ∧
    normalize (fun s => s) "C:\\Games\\Foo\\Foo.exe".data "C:\\Games\\Foo".data =
      ⟨"C:\\Games\\Foo".data, "C:\\Games\\Foo\\Foo.exe".data, false⟩ :=
  claim5 (fun s => s) "C:\\Games\\Foo\\Foo.exe".data "C:\\Games\\Foo".data
    (by decide) (by decide)

/-- Claim C7 (confirmed): `has_app` is true iff some entry's name is exactly
(case-sensitively) equal to the queried name, and an `add_game` append
followed by `has_app` on the appended name is always true. -/
theorem claim7 (s : SunshineApps) (name : Str) :
    (has_app s name = true ↔ ∃ a ∈ s.apps, a.name = name) ∧
    (∀ (w : Str → Str) (logfile cmd wd img : Str),
      has_app (add_game w s name logfile cmd wd img) name = true) := by
  constructor
  · unfold has_app
    rw [List.any_eq_true]
    constructor
    · rintro ⟨a, ha, he⟩
      exact ⟨a, ha, (beq_iff_eq.mp he).symm⟩
    · rintro ⟨a, ha, he⟩
      exact ⟨a, ha, beq_iff_eq.mpr he.symm⟩
  · intro w logfile cmd wd img
    unfold has_app add_game
    rw [List.any_eq_true]
    exact ⟨gameEntry w name logfile cmd wd img, by simp, by simp [gameEntry]⟩

/-- Claim C8 (confirmed): `add_game` is a pure append — the new `apps` list
is the old one with exactly the new entry at the end (so every existing
entry, duplicate names included, is kept unchanged and in order), and the
passthrough fields of the registry are untouched. -/
theorem claim8 (w : Str → Str) (s : SunshineApps) (name logfile cmd wd img : Str) :
    (add_game w s name logfile cmd wd img).apps =
      s.apps ++ [gameEntry w name logfile cmd wd img] ∧
    (add_game w s name logfile cmd wd img).passthrough = s.passthrough :=
  ⟨rfl, rfl⟩

/-- Claim C9, counterexample.  Python's `UUID` constructor also accepts
identifiers that are not in canonical text form — for example 32 undashed
hex digits — so `get_win_path` does not fail with `InvalidIdentifier` on
every non-canonical input, contrary to the claim. -/
theorem claim9_counterexample :
    canonicalUUID "F38BF4041D4342F2930567DE0B28FC23".data = false ∧
    get_win_path (fun _ => some []) "F38BF4041D4342F2930567DE0B28FC23".data =
      Except.ok [] := by
  constructor
  · decide
  · rfl

/-- Claim C9 as amended: `get_win_path` fails with `InvalidIdentifier`
exactly when `uuid.UUID` rejects the text (canonical form with or without
braces is accepted, but so are some non-canonical forms), and that failure
is independent of — happens before — the system lookup; a successfully
parsed identifier the system does not recognize fails with
`FolderNotFound`. -/
theorem claim9_amended (oracle oracle2 : Nat → Option Str) (s : Str) :
    (parseUUID s = none →
      get_win_path oracle s = Except.error ResolveError.invalidIdentifier ∧
      get_win_path oracle s = get_win_path oracle2 s) ∧
    (∀ u, parseUUID s = some u → oracle u = none →
      get_win_path oracle s = Except.error ResolveError.folderNotFound) ∧
    (∀ u p, parseUUID s = some u → oracle u = some p →
      get_win_path oracle s = Except.ok p) ∧
    get_win_path oracle "not-a-valid-uuid".data =
      Except.error ResolveError.invalidIdentifier ∧
    (parseUUID "B4BFCC3A-DB2C-424C-B029-7FE99A87C641".data ≠ none ∧
     parseUUID "{B4BFCC3A-DB2C-424C-B029-7FE99A87C641}".data ≠ none) := by
  have hnv : parseUUID "not-a-valid-uuid".data = none := by decide
  refine ⟨?_, ?_, ?_, by simp [get_win_path, hnv], by decide, by decide⟩
  · intro h
    constructor
    · simp [get_win_path, h]
    · simp [get_win_path, h]
  · intro u hu ho
    simp [get_win_path, hu, ho]
  · intro u p hu hp
    simp [get_win_path, hu, hp]

/-- Witness for `claim9_amended`: the malformed spec example
`not-a-valid-uuid` and an unrecognized well-formed identifier. -/
theorem claim9_amended_witness :
    (get_win_path (fun _ => none) "not-a-valid-uuid".data =
       Except.error ResolveError.invalidIdentifier ∧
     get_win_path (fun _ => none) "not-a-valid-uuid".data =
       get_win_path (fun _ => some []) "not-a-valid-uuid".data) ∧
    get_win_path (fun _ => none) "B4BFCC3A-DB2C-424C-B029-7FE99A87C641".data =
      Except.error ResolveError.folderNotFound :=
  ⟨(claim9_amended (fun _ => none) (fun _ => some []) "not-a-valid-uuid".data).1 (by decide),
   (claim9_amended (fun _ => none) (fun _ => some []) "B4BFCC3A-DB2C-424C-B029-7FE99A87C641".data).2.1
     240256910215888302945604511713095829057 (by decide) rfl⟩

/-- Claim C10 (confirmed): when the resolved working directory is empty,
the working-directory-prefix test is vacuously true, so a plain (non-URI,
non-`start`) command is never joined and is emitted unchanged apart from
the separator and quote stripping, with an empty working directory. -/
theorem claim10 (w : Str → Str) (cmd wd : Str)
    (hwd : resolvedWd w wd = [])
    (hstart : startsWithStartCI (resolvedCmd w cmd) = false)
    (huri : containsSub "://".data (resolvedCmd w cmd) = false) :
    normalize w cmd wd = ⟨[], resolvedCmd w cmd, false⟩ := by
  have hss : startStripped (resolvedCmd w cmd) = resolvedCmd w cmd := by
    simp [startStripped, hstart]
  have hu : containsSub "://".data (startStripped (resolvedCmd w cmd)) = false := by
    rw [hss]; exact huri
  rw [normalize_not_uri hu, hss, hwd, hstart]
  have : List.isPrefixOf ([] : Str) (resolvedCmd w cmd) = true := by
    simp [List.isPrefixOf]
  rw [this]
  simp

/-- Witness for `claim10` at a shortcut with no working directory. -/
theorem claim10_witness :
    normalize (fun s => s) "game.exe".data [] = ⟨[], resolvedCmd (fun s => s) "game.exe".data, false⟩ :=
  claim10 (fun s => s) "game.exe".data [] (by decide) (by decide) (by decide)

/-! ## Lemmas on the anchored pattern and `replaceAll` (for claim C3) -/

theorem matchesAt_length : ∀ {ps : List (Char → Bool)} {l : Str},
    matchesAt ps l = true → ps.length ≤ l.length := by
  intro ps
  induction ps with
  | nil => intro l _; simp
  | cons p pt ih =>
    intro l h
    cases l with
    | nil => simp [matchesAt] at h
    | cons c cs =>
      simp only [matchesAt, Bool.and_eq_true] at h
      have := ih h.2
      simp only [List.length_cons]
      omega

theorem knownMatch_length {p : Str} (h : knownMatch p = true) : 40 ≤ p.length := by
  have h40 : uuidPat.length = 40 := rfl
  have hm : matchesAt uuidPat p = true := h
  have := matchesAt_length hm
  omega

theorem knownMatch_take_two {p : Str} (h : knownMatch p = true) :
    p.take 2 = [':', ':'] := by
  unfold knownMatch at h
  have hu : uuidPat = chr ':' :: chr ':' :: chr '{' :: uuidPat.drop 3 := rfl
  rw [hu] at h
  cases p with
  | nil => simp [matchesAt] at h
  | cons c1 t =>
    cases t with
    | nil =>
      simp only [matchesAt, Bool.and_eq_true] at h
      exact absurd h.2 (by simp [matchesAt])
    | cons c2 t2 =>
      simp only [matchesAt, Bool.and_eq_true] at h
      have h1 : c1 = ':' := by
        have := h.1
        simpa [chr] using this
      have h2 : c2 = ':' := by
        have := h.2.1
        simpa [chr] using this
      simp [h1, h2]

theorem uuidToken_eq {p : Str} (h : knownMatch p = true) :
    uuidToken p = ':' :: ':' :: uuidGroup p := by
  unfold uuidToken uuidGroup
  have : p.take 40 = p.take 2 ++ (p.drop 2).take 38 := by
    have := List.take_add p 2 38
    simpa using this
  rw [this, knownMatch_take_two h]
  rfl

theorem replaceAllAux_congr (pat rep : Str) :
    ∀ (f1 : Nat), ∀ (f2 : Nat) (s : Str), s.length ≤ f1 → s.length ≤ f2 →
      replaceAllAux pat rep f1 s = replaceAllAux pat rep f2 s := by
  intro f1
  induction f1 with
  | zero =>
    intro f2 s h1 _
    have : s = [] := List.length_eq_zero.mp (Nat.le_zero.mp h1)
    subst this
    cases f2 <;> rfl
  | succ f ih =>
    intro f2 s h1 h2
    cases s with
    | nil => cases f2 <;> rfl
    | cons c cs =>
      simp only [List.length_cons] at h1 h2
      cases f2 with
      | zero => omega
      | succ f2' =>
        simp only [replaceAllAux]
        by_cases hc : pat ≠ [] ∧ pat.isPrefixOf (c :: cs)
        · rw [if_pos hc, if_pos hc]
          have hd := List.length_drop (pat.length - 1) cs
          have := ih f2' (cs.drop (pat.length - 1)) (by omega) (by omega)
          rw [this]
        · rw [if_neg hc, if_neg hc]
          have := ih f2' cs (by omega) (by omega)
          rw [this]

theorem replaceAll_cons_prefix {pat rep rest : Str} (hne : pat ≠ []) :
    replaceAll pat rep (pat ++ rest) = rep ++ replaceAll pat rep rest := by
  cases pat with
  | nil => exact absurd rfl hne
  | cons p0 pt =>
    show replaceAllAux (p0 :: pt) rep (p0 :: (pt ++ rest)).length (p0 :: (pt ++ rest)) = _
    simp only [List.length_cons, replaceAllAux]
    rw [if_pos]
    · have hdrop : (pt ++ rest).drop (pt.length + 1 - 1) = rest := by
        simp only [Nat.add_sub_cancel]
        exact List.drop_left pt rest
      rw [hdrop]
      have : replaceAllAux (p0 :: pt) rep (pt ++ rest).length rest =
          replaceAllAux (p0 :: pt) rep rest.length rest := by
        apply replaceAllAux_congr
        · simp
        · exact Nat.le_refl _
      rw [this]
      rfl
    · refine ⟨by simp, ?_⟩
      rw [List.isPrefixOf_iff_prefix]
      exact ⟨rest, rfl⟩

/-- Claim C3, counterexample.  The source performs `path.replace(token, …)`,
which replaces every occurrence of the token, so a second occurrence of the
same `::{identifier}` after the anchored prefix — which the claim says is
preserved character-for-character — is replaced as well. -/
theorem claim3_counterexample :
    known_path_to_absolute (fun _ => "C:\\W".data)
        ("::{F38BF404-1D43-42F2-9305-67DE0B28FC23}\\x\\::{F38BF404-1D43-42F2-9305-67DE0B28FC23}".data) =
      "C:\\W\\x\\C:\\W".data ∧
    known_path_to_absolute (fun _ => "C:\\W".data)
        ("::{F38BF404-1D43-42F2-9305-67DE0B28FC23}\\x\\::{F38BF404-1D43-42F2-9305-67DE0B28FC23}".data) ≠
      "C:\\W\\x\\::{F38BF404-1D43-42F2-9305-67DE0B28FC23}".data := by
  constructor
  · decide
  · decide

/-- Claim C3 as amended: a string is rewritten iff it begins at position
zero with a single `::{8-4-4-4-12}` token; the anchored token is replaced
by the Resolver's output, and so is every later occurrence of the same
token in the remainder (Python `str.replace` replaces all occurrences);
a string with no anchored prefix is returned unmodified. -/
theorem claim3_amended (f : Str → Str) (path : Str) :
    (knownMatch path = false → known_path_to_absolute f path = path) ∧
    (knownMatch path = true →
      known_path_to_absolute f path =
        f (uuidGroup path) ++
          replaceAll (uuidToken path) (f (uuidGroup path)) (path.drop 40)) := by
  refine ⟨fun h => known_path_to_absolute_eq_self h, fun h => ?_⟩
  unfold known_path_to_absolute
  rw [if_pos h]
  have htok : (':' :: ':' :: uuidGroup path) = uuidToken path := (uuidToken_eq h).symm
  rw [htok]
  have hsplit : path = uuidToken path ++ path.drop 40 := by
    unfold uuidToken
    exact (List.take_append_drop 40 path).symm
  have hne : uuidToken path ≠ [] := by
    rw [uuidToken_eq h]
    simp
  calc replaceAll (uuidToken path) (f (uuidGroup path)) path
      = replaceAll (uuidToken path) (f (uuidGroup path)) (uuidToken path ++ path.drop 40) :=
        congrArg (fun s => replaceAll (uuidToken path) (f (uuidGroup path)) s) hsplit
    _ = f (uuidGroup path) ++ replaceAll (uuidToken path) (f (uuidGroup path)) (path.drop 40) :=
        replaceAll_cons_prefix hne

/-- Witness for `claim3_amended` on a matching path. -/
theorem claim3_amended_witness :
    known_path_to_absolute (fun _ => "C:\\WINDOWS".data)
        ("::{F38BF404-1D43-42F2-9305-67DE0B28FC23}\\System32".data) =
      (fun (_ : Str) => "C:\\WINDOWS".data)
          (uuidGroup "::{F38BF404-1D43-42F2-9305-67DE0B28FC23}\\System32".data) ++
        replaceAll (uuidToken "::{F38BF404-1D43-42F2-9305-67DE0B28FC23}\\System32".data)
          ((fun (_ : Str) => "C:\\WINDOWS".data)
            (uuidGroup "::{F38BF404-1D43-42F2-9305-67DE0B28FC23}\\System32".data))
          ("::{F38BF404-1D43-42F2-9305-67DE0B28FC23}\\System32".data.drop 40) :=
  (claim3_amended (fun _ => "C:\\WINDOWS".data)
    "::{F38BF404-1D43-42F2-9305-67DE0B28FC23}\\System32".data).2 (by decide)

/-! ## Character-membership lemmas (for claim C6) -/

theorem mem_dropWhile {c : Char} {p : Char → Bool} :
    ∀ {l : Str}, c ∈ l.dropWhile p → c ∈ l := by
  intro l
  induction l with
  | nil => intro h; simp at h
  | cons x xs ih =>
    intro h
    by_cases hx : p x
    · rw [List.dropWhile_cons_of_pos hx] at h
      exact List.mem_cons_of_mem x (ih h)
    · rw [List.dropWhile_cons_of_neg hx] at h
      exact h

theorem mem_rstripSep {c : Char} {s : Str} (h : c ∈ rstripSep s) : c ∈ s := by
  unfold rstripSep at h
  rw [List.mem_reverse] at h
  have := mem_dropWhile h
  rwa [List.mem_reverse] at this

theorem mem_pyStrip {c : Char} {s : Str} (h : c ∈ pyStrip s) : c ∈ s := by
  unfold pyStrip at h
  rw [List.mem_reverse] at h
  have h1 := mem_dropWhile h
  rw [List.mem_reverse] at h1
  exact mem_dropWhile h1

theorem mem_startStripped {c0 : Char} {c : Str} (h : c0 ∈ startStripped c) : c0 ∈ c := by
  unfold startStripped at h
  split at h
  · exact List.mem_of_mem_drop (mem_pyStrip h)
  · exact h

theorem splitdrive_fst_take (p : Str) : ∃ n, (splitdrive p).1 = p.take n := by
  unfold splitdrive uncSplit
  repeat' split
  all_goals first
    | exact ⟨0, rfl⟩
    | exact ⟨2, rfl⟩
    | exact ⟨_, rfl⟩
    | exact ⟨p.length, (List.take_length p).symm⟩

theorem splitdrive_snd_drop (p : Str) : ∃ n, (splitdrive p).2 = p.drop n := by
  unfold splitdrive uncSplit
  repeat' split
  all_goals first
    | exact ⟨0, rfl⟩
    | exact ⟨2, rfl⟩
    | exact ⟨_, rfl⟩
    | exact ⟨p.length, (List.drop_length p).symm⟩

theorem mem_splitdrive_fst {c : Char} {p : Str} (h : c ∈ (splitdrive p).1) : c ∈ p := by
  obtain ⟨n, hn⟩ := splitdrive_fst_take p
  rw [hn] at h
  exact List.mem_of_mem_take h

theorem mem_splitdrive_snd {c : Char} {p : Str} (h : c ∈ (splitdrive p).2) : c ∈ p := by
  obtain ⟨n, hn⟩ := splitdrive_snd_drop p
  rw [hn] at h
  exact List.mem_of_mem_drop h

theorem mem_appendRel {c : Char} {rp pp : Str} (h : c ∈ appendRel rp pp) :
    c ∈ rp ∨ c ∈ pp ∨ c = '\\' := by
  unfold appendRel at h
  split at h
  · rcases List.mem_append.mp h with h1 | h2
    · exact Or.inl h1
    · rcases List.mem_cons.mp h2 with h3 | h4
      · exact Or.inr (Or.inr h3)
      · exact Or.inr (Or.inl h4)
  · rcases List.mem_append.mp h with h1 | h2
    · exact Or.inl h1
    · exact Or.inr (Or.inl h2)

theorem mem_ntJoinRes_fst {c : Char} {a b : Str} (h : c ∈ (ntJoinRes a b).1) :
    c ∈ a ∨ c ∈ b := by
  unfold ntJoinRes at h
  repeat' split at h
  all_goals first
    | exact Or.inr (mem_splitdrive_fst h)
    | exact Or.inl (mem_splitdrive_fst h)

theorem mem_ntJoinRes_snd {c : Char} {a b : Str} (h : c ∈ (ntJoinRes a b).2) :
    c ∈ a ∨ c ∈ b ∨ c = '\\' := by
  unfold ntJoinRes at h
  repeat' split at h
  all_goals first
    | exact Or.inr (Or.inl (mem_splitdrive_snd h))
    | (rcases mem_appendRel h with h5 | h5 | h5
       · exact Or.inl (mem_splitdrive_snd h5)
       · exact Or.inr (Or.inl (mem_splitdrive_snd h5))
       · exact Or.inr (Or.inr h5))

theorem mem_ntJoin {c : Char} {a b : Str} (h : c ∈ ntJoin a b) :
    c ∈ a ∨ c ∈ b ∨ c = '\\' := by
  unfold ntJoin at h
  split at h
  · rcases List.mem_append.mp h with h1 | h2
    · rcases mem_ntJoinRes_fst h1 with h3 | h3
      · exact Or.inl h3
      · exact Or.inr (Or.inl h3)
    · rcases List.mem_cons.mp h2 with h3 | h3
      · exact Or.inr (Or.inr h3)
      · exact mem_ntJoinRes_snd h3
  · rcases List.mem_append.mp h with h1 | h2
    · rcases mem_ntJoinRes_fst h1 with h3 | h3
      · exact Or.inl h3
      · exact Or.inr (Or.inl h3)
    · exact mem_ntJoinRes_snd h2

theorem normalize_workingDir (w : Str → Str) (cmd wd : Str) :
    (normalize w cmd wd).workingDir = resolvedWd w wd := by
  unfold normalize
  split <;> rfl

theorem not_mem_resolvedWd (w : Str → Str) (wd : Str) : '"' ∉ resolvedWd w wd :=
  not_mem_stripQuotes _

theorem not_mem_resolvedCmd (w : Str → Str) (cmd : Str) : '"' ∉ resolvedCmd w cmd :=
  not_mem_stripQuotes _

theorem normalize_cmd_quote_free (w : Str → Str) (cmd wd : Str) :
    '"' ∉ (normalize w cmd wd).cmd := by
  have hc1 : '"' ∉ startStripped (resolvedCmd w cmd) := fun h =>
    not_mem_resolvedCmd w cmd (mem_startStripped h)
  have hwd : '"' ∉ resolvedWd w wd := not_mem_resolvedWd w wd
  unfold normalize
  split
  · show '"' ∉ (if _ then _ else _)
    split
    · intro h
      rcases List.mem_append.mp h with h1 | h2
      · simp at h1
      · exact hc1 h2
    · exact hc1
  · show '"' ∉ (if _ then _ else _)
    split
    · exact hc1
    · intro h
      rcases mem_ntJoin h with h1 | h1 | h1
      · exact hwd h1
      · exact hc1 h1
      · simp at h1

/-- Claim C6, counterexample.  Quote stripping happens after the
trailing-separator trim, so a working directory ending in `\"` yields an
entry whose working directory ends in a path separator, violating the
claimed invariant. -/
theorem claim6_counterexample :
    ((add_game (fun s => s) ⟨[], []⟩ "g".data "g.log".data "game.exe".data
        "C:\\x\\\"".data "i.png".data).apps.map
      (fun a => a.workingDir.getLast?)) = [some '\\'] := by
  decide

/-- Claim C6 as amended: every entry produced by `add_game` carries exactly
one of a direct command or a one-element detached list, its working
directory and command contain no `"` character, and the working directory
does not end in a path separator provided the resolved working directory
contains no `"` (quote removal after the trim can otherwise re-expose a
trailing separator). -/
theorem claim6_amended (w : Str → Str) (s : SunshineApps) (n l cmd wd i : Str) :
    (add_game w s n l cmd wd i).apps = s.apps ++ [gameEntry w n l cmd wd i] ∧
    '"' ∉ (gameEntry w n l cmd wd i).workingDir ∧
    ((∀ c ∈ known_path_to_absolute w wd, c ≠ '"') →
      (gameEntry w n l cmd wd i).workingDir.getLast? ≠ some '\\') ∧
    (∀ c, (gameEntry w n l cmd wd i).cmd = some c → '"' ∉ c) ∧
    (∀ ds, (gameEntry w n l cmd wd i).detached = some ds → ∀ d ∈ ds, '"' ∉ d) ∧
    (((gameEntry w n l cmd wd i).cmd ≠ none ∧ (gameEntry w n l cmd wd i).detached = none) ∨
     ((gameEntry w n l cmd wd i).cmd = none ∧
      ∃ d, (gameEntry w n l cmd wd i).detached = some [d])) := by
  refine ⟨rfl, ?_, ?_, ?_, ?_, ?_⟩
  · show '"' ∉ (normalize w cmd wd).workingDir
    rw [normalize_workingDir]
    exact not_mem_resolvedWd w wd
  · intro hq
    show (normalize w cmd wd).workingDir.getLast? ≠ some '\\'
    rw [normalize_workingDir]
    unfold resolvedWd
    have hq2 : ∀ c ∈ rstripSep (known_path_to_absolute w wd), c ≠ '"' :=
      fun c hc => hq c (mem_rstripSep hc)
    rw [stripQuotes_eq_self hq2]
    exact rstripSep_getLast? _
  · intro c hc
    unfold gameEntry at hc
    by_cases hd : (normalize w cmd wd).detached
    · simp [hd] at hc
    · simp only [hd, if_neg, Bool.false_eq_true, if_false, Option.some.injEq] at hc
      subst hc
      exact normalize_cmd_quote_free w cmd wd
  · intro ds hds d hd
    unfold gameEntry at hds
    by_cases hdet : (normalize w cmd wd).detached
    · simp only [hdet, if_true, Option.some.injEq] at hds
      subst hds
      rcases List.mem_singleton.mp hd with rfl
      exact normalize_cmd_quote_free w cmd wd
    · simp [hdet] at hds
  · unfold gameEntry
    by_cases hdet : (normalize w cmd wd).detached
    · right
      simp [hdet]
    · left
      simp [hdet]

/-- Witness for `claim6_amended` at a quote-free concrete input. -/
theorem claim6_amended_witness :
    (add_game (fun s => s) ⟨[], []⟩ "g".data "g.log".data "game.exe".data
        "C:\\dir".data "i.png".data).apps =
      ([] : List App) ++ [gameEntry (fun s => s) "g".data "g.log".data "game.exe".data
        "C:\\dir".data "i.png".data] ∧
    '"' ∉ (gameEntry (fun s => s) "g".data "g.log".data "game.exe".data
        "C:\\dir".data "i.png".data).workingDir ∧
    (gameEntry (fun s => s) "g".data "g.log".data "game.exe".data
        "C:\\dir".data "i.png".data).workingDir.getLast? ≠ some '\\' := by
  have h := claim6_amended (fun s => s) ⟨[], []⟩ "g".data "g.log".data "game.exe".data
    "C:\\dir".data "i.png".data
  exact ⟨h.1, h.2.1, h.2.2.1 (by decide)⟩

/-! ## Infrastructure for claim C4: substring containment as infixes -/

theorem containsSub_iff {pat s : Str} : containsSub pat s = true ↔ pat <:+: s := by
  unfold containsSub
  rw [List.any_eq_true]
  constructor
  · rintro ⟨t, ht, hp⟩
    rw [List.mem_tails] at ht
    rw [List.isPrefixOf_iff_prefix] at hp
    exact List.infix_iff_prefix_suffix.mpr ⟨t, hp, ht⟩
  · intro h
    obtain ⟨t, hp, ht⟩ := List.infix_iff_prefix_suffix.mp h
    exact ⟨t, (List.mem_tails _ _).mpr ht, List.isPrefixOf_iff_prefix.mpr hp⟩

theorem not_containsSub_of_not_infix {pat s : Str} (h : ¬ pat <:+: s) :
    containsSub pat s = false := by
  rw [Bool.eq_false_iff]
  intro hc
  exact h (containsSub_iff.mp hc)

/-- Decomposition of an infix of an append: it lies in the left part, in the
right part, or spans the boundary. -/
theorem infix_append_cases {pat a b : Str} (h : pat <:+: a ++ b) :
    pat <:+: a ∨ pat <:+: b ∨
    ∃ k, 0 < k ∧ k < pat.length ∧ pat.take k <:+ a ∧ pat.drop k <+: b := by
  induction a with
  | nil =>
    right; left
    simpa using h
  | cons x a' ih =>
    rw [List.cons_append] at h
    rcases List.infix_cons_iff.mp h with hp | hi
    · by_cases hlen : pat.length ≤ (x :: a').length
      · left
        have h1 : pat = ((x :: a') ++ b).take pat.length := List.prefix_iff_eq_take.mp hp
        rw [List.take_append_of_le_length hlen] at h1
        rw [h1]
        exact (List.take_prefix _ _).isInfix
      · right; right
        obtain ⟨t, ht⟩ := hp
        have hxb : x :: (a' ++ b) = (x :: a') ++ b := (List.cons_append x a' b).symm
        refine ⟨(x :: a').length, by simp, by omega, ?_, ?_⟩
        · have h1 : (pat ++ t).take (x :: a').length = pat.take (x :: a').length :=
            List.take_append_of_le_length (by omega)
          rw [ht, hxb, List.take_left] at h1
          rw [← h1]
        · have h1 : (pat ++ t).drop (x :: a').length =
              pat.drop (x :: a').length ++ t :=
            List.drop_append_of_le_length (by omega)
          rw [ht, hxb, List.drop_left] at h1
          exact ⟨t, h1.symm⟩
    · rcases ih hi with h1 | h1 | ⟨k, hk0, hk1, hk2, hk3⟩
      · exact Or.inl (List.infix_cons h1)
      · exact Or.inr (Or.inl h1)
      · exact Or.inr (Or.inr ⟨k, hk0, hk1, hk2.trans (List.suffix_cons x a'), hk3⟩)

theorem infix_mem {pat s : Str} (h : pat <:+: s) {c : Char} (hc : c ∈ pat) : c ∈ s :=
  h.subset hc

/-! ### `Char.toLower` facts -/

theorem toNat_ofNat_valid {n : Nat} (h : n.isValidChar) : (Char.ofNat n).toNat = n := by
  unfold Char.ofNat
  rw [dif_pos h]
  rfl

theorem toLower_eq_or (c : Char) :
    Char.toLower c = c ∨
    (97 ≤ (Char.toLower c).toNat ∧ (Char.toLower c).toNat ≤ 122) := by
  by_cases h : c.toNat ≥ 65 ∧ c.toNat ≤ 90
  · right
    have hl : Char.toLower c = Char.ofNat (c.toNat + 32) := by
      simp only [Char.toLower]
      rw [if_pos h]
    have hv : (c.toNat + 32).isValidChar := Or.inl (by omega)
    rw [hl, toNat_ofNat_valid hv]
    omega
  · left
    simp only [Char.toLower]
    rw [if_neg h]

/-- `toLower` can only produce a character outside `a`–`z` by leaving its
argument unchanged. -/
theorem eq_of_toLower_eq {c x : Char} (hx : x.toNat < 97 ∨ 122 < x.toNat)
    (h : Char.toLower c = x) : c = x := by
  rcases toLower_eq_or c with h1 | h1
  · exact h1.symm.trans h
  · rw [h] at h1
    omega

/-! ### head and prefix facts -/

theorem knownMatch_head {p : Str} (h : knownMatch p = true) : p.head? = some ':' := by
  have h2 := knownMatch_take_two h
  cases p with
  | nil => simp at h2
  | cons c cs =>
    have h3 : (c :: cs).take 2 = c :: cs.take 1 := rfl
    rw [h3] at h2
    simp only [List.cons.injEq] at h2
    rw [List.head?_cons, h2.1]

theorem isPrefixOf_append_self (a t : Str) : a.isPrefixOf (a ++ t) = true :=
  List.isPrefixOf_iff_prefix.mpr (List.prefix_append a t)

theorem head?_append_of_ne_nil {a b : Str} (h : a ≠ []) : (a ++ b).head? = a.head? := by
  cases a with
  | nil => exact absurd rfl h
  | cons x xs => rfl

/-! ### `startsWithStartCI` facts -/

theorem startCI_take5_mem {j : Str} (h : startsWithStartCI j = true) :
    ∀ c ∈ j.take 5, Char.toLower c ∈ "start".data := by
  intro c hc
  unfold startsWithStartCI at h
  rw [List.isPrefixOf_iff_prefix] at h
  have h1 : "start".data = (pyLower j).take 5 := by
    have := List.prefix_iff_eq_take.mp h
    simpa using this
  have h2 : (pyLower j).take 5 = pyLower (j.take 5) := by
    unfold pyLower
    rw [List.map_take]
  have : Char.toLower c ∈ pyLower (j.take 5) := List.mem_map_of_mem Char.toLower hc
  rw [← h2, ← h1] at this
  exact this

theorem not_startCI_of_mem_take5 {j : Str} {c : Char} (hc : c ∈ j.take 5)
    (hbad : Char.toLower c ∉ "start".data) : startsWithStartCI j = false := by
  rw [Bool.eq_false_iff]
  intro h
  exact hbad (startCI_take5_mem h c hc)

theorem startCI_of_append {a t : Str} (hlen : 5 ≤ a.length)
    (h : startsWithStartCI (a ++ t) = true) : startsWithStartCI a = true := by
  unfold startsWithStartCI at h ⊢
  rw [List.isPrefixOf_iff_prefix] at h ⊢
  have h1 : "start".data = (pyLower (a ++ t)).take 5 := by
    have := List.prefix_iff_eq_take.mp h
    simpa using this
  have h2 : (pyLower (a ++ t)).take 5 = (pyLower a).take 5 := by
    unfold pyLower
    rw [List.map_append]
    exact List.take_append_of_le_length (by simpa using hlen)
  rw [List.prefix_iff_eq_take]
  rw [h1, h2]
  simp

/-! ### `splitdrive` structure lemmas -/

theorem normSeps_eq_self {p : Str} (h : '/' ∉ p) : normSeps p = p := by
  unfold normSeps
  induction p with
  | nil => rfl
  | cons x xs ih =>
    have hx : x ≠ '/' := fun he => h (he ▸ List.mem_cons_self x xs)
    have hxs : '/' ∉ xs := fun hm => h (List.mem_cons_of_mem x hm)
    simp only [List.map_cons, ih hxs]
    congr 1
    simp [hx]

theorem splitdrive_append (p : Str) : (splitdrive p).1 ++ (splitdrive p).2 = p := by
  unfold splitdrive uncSplit
  repeat' split
  all_goals simp [List.take_append_drop]

theorem splitdrive_drive_letter (c : Char) (r : Str) :
    splitdrive (c :: ':' :: r) = ([c, ':'], r) := by
  have hlen : (c :: ':' :: r).length ≥ 2 := by simp
  have hn : normSeps (c :: ':' :: r) =
      (if c == '/' then '\\' else c) :: ':' :: normSeps r := by
    simp [normSeps]
  have hunc : ¬ (normSeps (c :: ':' :: r)).take 2 = ['\\', '\\'] := by
    rw [hn]; simp
  have hcol : (normSeps (c :: ':' :: r)).get? 1 = some ':' := by
    rw [hn]; rfl
  unfold splitdrive
  rw [if_pos hlen, if_neg hunc, if_pos hcol]
  rfl

theorem findFrom_some {p : Char → Bool} :
    ∀ {l : Str} {i j : Nat}, findFrom p l i = some j →
      i ≤ j ∧ ∃ c, l.get? (j - i) = some c ∧ p c = true := by
  intro l
  induction l with
  | nil => intro i j h; simp [findFrom] at h
  | cons x xs ih =>
    intro i j h
    unfold findFrom at h
    by_cases hx : p x
    · rw [if_pos hx] at h
      simp only [Option.some.injEq] at h
      subst h
      exact ⟨Nat.le_refl _, x, by simp, hx⟩
    · rw [if_neg hx] at h
      obtain ⟨hle, c, hc, hpc⟩ := ih h
      refine ⟨by omega, c, ?_, hpc⟩
      have : j - i = (j - (i + 1)) + 1 := by omega
      rw [this]
      simpa using hc

theorem findSepFrom_some {s : Str} {start i : Nat} (h : findSepFrom s start = some i) :
    start ≤ i ∧ s.get? i = some '\\' := by
  unfold findSepFrom at h
  obtain ⟨hle, c, hc, hpc⟩ := findFrom_some h
  have hcc : c = '\\' := by simpa using hpc
  subst hcc
  refine ⟨hle, ?_⟩
  rw [List.get?_drop] at hc
  have : start + (i - start) = i := by omega
  rw [this] at hc
  exact hc

theorem get?_normSeps (p : Str) (i : Nat) :
    (normSeps p).get? i = (p.get? i).map (fun c => if c == '/' then '\\' else c) := by
  unfold normSeps
  exact List.get?_map _ _ _

/-- The three shapes `splitdrive` can produce. -/
theorem splitdrive_cases (p : Str) :
    splitdrive p = ([], p) ∨
    (∃ c0 rest, p = c0 :: ':' :: rest ∧ splitdrive p = ([c0, ':'], rest)) ∨
    ((p.head? = some '/' ∨ p.head? = some '\\') ∧
     ((splitdrive p).1.get? 1 = some '/' ∨ (splitdrive p).1.get? 1 = some '\\') ∧
     (splitdrive p).1 ≠ [] ∧
     ((splitdrive p).2 = [] ∨ (splitdrive p).2.head? = some '/' ∨
      (splitdrive p).2.head? = some '\\')) := by
  by_cases hlen : p.length ≥ 2
  · by_cases hunc : (normSeps p).take 2 = ['\\', '\\']
    · -- UNC branch
      right; right
      -- p has at least two characters
      obtain ⟨c0, c1, rest, rfl⟩ : ∃ c0 c1 rest, p = c0 :: c1 :: rest := by
        cases p with
        | nil => simp at hlen
        | cons a t =>
          cases t with
          | nil => simp at hlen
          | cons b u => exact ⟨a, b, u, rfl⟩
      have hn0 : (if c0 == '/' then '\\' else c0) = '\\' ∧
          (if c1 == '/' then '\\' else c1) = '\\' := by
        have : normSeps (c0 :: c1 :: rest) =
            (if c0 == '/' then '\\' else c0) :: (if c1 == '/' then '\\' else c1) ::
              normSeps rest := by simp [normSeps]
        rw [this] at hunc
        simp only [List.take, List.cons.injEq] at hunc
        exact ⟨hunc.1, hunc.2.1⟩
      have hh : (c0 :: c1 :: rest).head? = some '/' ∨ (c0 :: c1 :: rest).head? = some '\\' := by
        rcases hn0.1 with h1
        by_cases hc : c0 == '/'
        · left
          rw [List.head?_cons]
          simp only [beq_iff_eq] at hc
          rw [hc]
        · right
          rw [if_neg hc] at h1
          rw [List.head?_cons, h1]
      have hg1 : (c0 :: c1 :: rest).get? 1 = some c1 := rfl
      have hc1 : c1 = '/' ∨ c1 = '\\' := by
        by_cases hc : c1 == '/'
        · left; simpa using hc
        · right
          have := hn0.2
          rw [if_neg hc] at this
          exact this
      -- now compute the branch
      have hstart : 2 ≤ uncStart (normSeps (c0 :: c1 :: rest)) := by
        unfold uncStart
        split <;> omega
      have hsd0 : splitdrive (c0 :: c1 :: rest) =
          uncSplit (c0 :: c1 :: rest) (normSeps (c0 :: c1 :: rest))
            (uncStart (normSeps (c0 :: c1 :: rest))) := by
        unfold splitdrive
        rw [if_pos hlen, if_pos hunc]
      rw [hsd0]
      unfold uncSplit
      split
      · -- no separator after the start: whole string is the drive
        refine ⟨hh, ?_, by simp, Or.inl rfl⟩
        rcases hc1 with h | h
        · refine Or.inl ?_
          show (c0 :: c1 :: rest).get? 1 = some '/'
          rw [← h]; exact hg1
        · refine Or.inr ?_
          show (c0 :: c1 :: rest).get? 1 = some '\\'
          rw [← h]; exact hg1
      · rename_i index hf1
        have hidx := findSepFrom_some hf1
        split
        · refine ⟨hh, ?_, by simp, Or.inl rfl⟩
          rcases hc1 with h | h
          · refine Or.inl ?_
            show (c0 :: c1 :: rest).get? 1 = some '/'
            rw [← h]; exact hg1
          · refine Or.inr ?_
            show (c0 :: c1 :: rest).get? 1 = some '\\'
            rw [← h]; exact hg1
        · rename_i index2 hf2
          have hidx2 := findSepFrom_some hf2
          have h2le : 2 ≤ index2 := by omega
          refine ⟨hh, ?_, ?_, ?_⟩
          · have hq : ((c0 :: c1 :: rest).take index2).get? 1 = some c1 := by
              rw [List.get?_take (by omega)]
              exact hg1
            show ((c0 :: c1 :: rest).take index2).get? 1 = some '/' ∨
                ((c0 :: c1 :: rest).take index2).get? 1 = some '\\'
            rcases hc1 with h | h
            · refine Or.inl ?_
              rw [← h]; exact hq
            · refine Or.inr ?_
              rw [← h]; exact hq
          · show (c0 :: c1 :: rest).take index2 ≠ []
            intro hcon
            have := congrArg List.length hcon
            simp only [List.length_take, List.length_nil] at this
            simp only [List.length_cons] at this hlen
            omega
          · right
            show ((c0 :: c1 :: rest).drop index2).head? = some '/' ∨
                ((c0 :: c1 :: rest).drop index2).head? = some '\\'
            have hd : ((c0 :: c1 :: rest).drop index2).head? =
                (c0 :: c1 :: rest).get? index2 := by
              rw [List.head?_drop, List.get?_eq_getElem?]
            rw [hd]
            have hcc0 := hidx2.2
            rw [get?_normSeps] at hcc0
            cases hg : (c0 :: c1 :: rest).get? index2 with
            | none => rw [hg] at hcc0; simp at hcc0
            | some cc =>
              rw [hg] at hcc0
              simp only [Option.map_some', Option.some.injEq] at hcc0
              by_cases hcc : cc == '/'
              · left
                simp only [beq_iff_eq] at hcc
                rw [hcc]
              · right
                rw [if_neg hcc] at hcc0
                rw [hcc0]
    · -- not UNC
      by_cases hcolon : (normSeps p).get? 1 = some ':'
      · right; left
        obtain ⟨c0, c1, rest, rfl⟩ : ∃ c0 c1 rest, p = c0 :: c1 :: rest := by
          cases p with
          | nil => simp at hlen
          | cons a t =>
            cases t with
            | nil => simp at hlen
            | cons b u => exact ⟨a, b, u, rfl⟩
        have hc1 : c1 = ':' := by
          rw [get?_normSeps] at hcolon
          simp only [List.get?] at hcolon
          simp only [Option.map_some', Option.some.injEq] at hcolon
          by_cases hc : c1 == '/'
          · rw [if_pos hc] at hcolon
            exact absurd hcolon (by decide)
          · rw [if_neg hc] at hcolon
            exact hcolon
        subst hc1
        exact ⟨c0, rest, rfl, splitdrive_drive_letter c0 rest⟩
      · left
        unfold splitdrive
        rw [if_pos hlen, if_neg hunc, if_neg hcolon]
  · left
    unfold splitdrive
    rw [if_neg hlen]

/-! ### More helpers for claim C4 -/

theorem getLast?_mem {l : Str} {a : Char} (h : l.getLast? = some a) : a ∈ l := by
  obtain ⟨hne, heq⟩ := List.mem_getLast?_eq_getLast (Option.mem_def.mpr h)
  rw [heq]
  exact List.getLast_mem hne

theorem head?_mem {l : Str} {a : Char} (h : l.head? = some a) : a ∈ l := by
  cases l with
  | nil => simp at h
  | cons x xs =>
    simp only [List.head?_cons, Option.some.injEq] at h
    rw [← h]
    exact List.mem_cons_self x xs

/-- Under the working-directory hypotheses, `splitdrive` yields either no
drive or a two-character drive-letter drive. -/
theorem splitdrive_wd {wd : Str} (hhw : wd.head? ≠ some '\\') (hslash : '/' ∉ wd) :
    splitdrive wd = ([], wd) ∨
    ∃ w0 rp, wd = w0 :: ':' :: rp ∧ splitdrive wd = ([w0, ':'], rp) := by
  rcases splitdrive_cases wd with h | h | h
  · exact Or.inl h
  · exact Or.inr h
  · exfalso
    rcases h.1 with hh | hh
    · exact hslash (head?_mem hh)
    · exact hhw hh

theorem appendRel_pos {rp pp : Str} (h1 : rp ≠ []) (h2 : rp.getLast? ≠ some '\\')
    (h3 : rp.getLast? ≠ some '/') : appendRel rp pp = rp ++ '\\' :: pp := by
  unfold appendRel
  rw [if_pos ⟨h1, h2, h3⟩]

theorem appendRel_nil (pp : Str) : appendRel [] pp = pp := by
  unfold appendRel
  rw [if_neg (by simp)]
  rfl

theorem ntJoin_absolute {a b : Str} (h2 : (splitdrive b).2 ≠ [])
    (hh : (splitdrive b).2.head? = some '\\' ∨ (splitdrive b).2.head? = some '/')
    (h1 : (splitdrive b).1 ≠ [] ∨ (splitdrive a).1 = []) :
    ntJoin a b = b := by
  have hres : ntJoinRes a b = ((splitdrive b).1, (splitdrive b).2) := by
    unfold ntJoinRes
    rw [if_pos ⟨h2, hh⟩, if_pos h1]
  unfold ntJoin
  rw [hres]
  rw [if_neg (by
    rintro ⟨c1, c2, c3, -⟩
    rcases hh with hh | hh
    · exact c2 hh
    · exact c3 hh)]
  exact splitdrive_append b

theorem infix_of_infix_drop {pat l : Str} {n : Nat} (h : pat <:+: l.drop n) :
    pat <:+: l :=
  h.trans (List.drop_suffix n l).isInfix

theorem getLast?_of_suffix {s t : Str} (h : s <:+ t) (hne : s ≠ []) :
    t.getLast? = s.getLast? := by
  obtain ⟨pre, rfl⟩ := h
  exact List.getLast?_append_of_ne_nil pre hne

theorem not_prefix_cons_of_head {pat : Str} {c x : Char} {l : Str}
    (hp : pat.head? = some c) (hne : c ≠ x) : ¬ pat <+: x :: l := by
  intro h
  cases pat with
  | nil => simp at hp
  | cons p0 pt =>
    simp only [List.head?_cons, Option.some.injEq] at hp
    subst hp
    rw [List.cons_prefix_cons] at h
    exact hne h.1

/-- `steam://` cannot occur in `a ++ '\\' :: u` when `a` has no slash and
`u` has no `://`. -/
theorem steam_not_infix_append_cons {a u : Str} (ha : '/' ∉ a)
    (hu : ¬ "://".data <:+: u) : ¬ "steam://".data <:+: a ++ '\\' :: u := by
  intro h
  rcases infix_append_cases h with h1 | h1 | ⟨k, hk0, hk1, hk2, hk3⟩
  · exact ha (infix_mem h1 (by decide))
  · rcases List.infix_cons_iff.mp h1 with h2 | h2
    · exact absurd h2 (not_prefix_cons_of_head rfl (by decide))
    · exact hu ((show "://".data <:+: "steam://".data by decide).trans h2)
  · have hk8 : ("steam://".data).length = 8 := rfl
    rw [hk8] at hk1
    interval_cases k <;>
      exact absurd hk3 (not_prefix_cons_of_head rfl (by decide))

/-- `steam://` cannot occur in `c :: ':' :: u` when `u` has no `://`. -/
theorem steam_not_infix_two_cons {c : Char} {u : Str} (hu : ¬ "://".data <:+: u) :
    ¬ "steam://".data <:+: c :: ':' :: u := by
  intro h
  have h' : "steam://".data <:+: [c, ':'] ++ u := h
  rcases infix_append_cases h' with h1 | h1 | ⟨k, hk0, hk1, hk2, hk3⟩
  · have := h1.length_le
    simp at this
  · exact hu ((show "://".data <:+: "steam://".data by decide).trans h1)
  · have hk8 : ("steam://".data).length = 8 := rfl
    rw [hk8] at hk1
    have hkle : k ≤ 2 := by
      have h1 := hk2.length_le
      have h2 : (("steam://".data).take k).length = k := by
        rw [List.length_take, hk8]
        omega
      rw [h2] at h1
      simpa using h1
    have hlast : [c, ':'].getLast? = (("steam://".data).take k).getLast? :=
      getLast?_of_suffix hk2 (by
        intro hcon
        have := congrArg List.length hcon
        rw [List.length_take, hk8] at this
        simp at this
        omega)
    interval_cases k <;> simp at hlast

/-- `://` cannot occur in `rp ++ '\\' :: pp` when `rp` has no slash and
`pp` has no `://`. -/
theorem uri_not_infix_append_cons {rp pp : Str} (hrp : '/' ∉ rp)
    (hpp : ¬ "://".data <:+: pp) : ¬ "://".data <:+: rp ++ '\\' :: pp := by
  intro h
  rcases infix_append_cases h with h1 | h1 | ⟨k, hk0, hk1, hk2, hk3⟩
  · exact hrp (infix_mem h1 (by decide))
  · rcases List.infix_cons_iff.mp h1 with h2 | h2
    · exact absurd h2 (not_prefix_cons_of_head rfl (by decide))
    · exact hpp h2
  · have hk3' : ("://".data).length = 3 := rfl
    rw [hk3'] at hk1
    interval_cases k <;>
      exact absurd hk3 (not_prefix_cons_of_head rfl (by decide))

theorem not_infix_of_containsSub_false {pat s : Str} (h : containsSub pat s = false) :
    ¬ pat <:+: s := fun hi => by
  rw [containsSub_iff.mpr hi] at h
  exact Bool.true_eq_false.mp h

theorem knownMatch_false_of_head {s : Str} (h : s.head? ≠ some ':') :
    knownMatch s = false := by
  rw [Bool.eq_false_iff]
  intro hm
  exact h (knownMatch_head hm)

theorem not_startCI_two_colon (c : Char) (u : Str) :
    startsWithStartCI (c :: ':' :: u) = false := by
  exact not_startCI_of_mem_take5
    (show ':' ∈ (c :: ':' :: u).take 5 by
      have ht : (c :: ':' :: u).take 5 = c :: ':' :: u.take 3 := rfl
      rw [ht]
      exact List.mem_cons_of_mem _ (List.mem_cons_self _ _))
    (by decide)

theorem not_startCI_append_sep {wd : Str} (u : Str)
    (hsw : startsWithStartCI wd = false) :
    startsWithStartCI (wd ++ '\\' :: u) = false := by
  by_cases hlen : 5 ≤ wd.length
  · rw [Bool.eq_false_iff]
    intro h
    exact Bool.true_eq_false.mp ((startCI_of_append hlen h).symm.trans hsw)
  · exact not_startCI_of_mem_take5
      (show '\\' ∈ (wd ++ '\\' :: u).take 5 by
        rw [List.take_append_eq_append_take]
        apply List.mem_append.mpr
        right
        have h5 : 5 - wd.length = (4 - wd.length) + 1 := by omega
        rw [h5, List.take_succ_cons]
        exact List.mem_cons_self _ _)
      (by decide)

theorem steam_not_infix_of_no_slash {a : Str} (ha : '/' ∉ a) :
    ¬ "steam://".data <:+: a := fun h => ha (infix_mem h (by decide))

/-- The heart of the idempotence argument: a command `j` that survives the
resolution/trim/quote stage unchanged, does not trigger the `start` rule,
never contains `steam://`, and is either working-directory-prefixed or a
fixed point of the join, is passed through the normalizer unchanged. -/
theorem normalize_fixed_of (w : Str → Str) (j wd : Str)
    (hm : knownMatch j = false)
    (hq : ∀ c ∈ j, c ≠ '"')
    (hh : j.head? ≠ some '\\')
    (hs : startsWithStartCI j = false)
    (hsteam : containsSub "steam://".data j = false)
    (hwd : resolvedWd w wd = wd)
    (hpre : containsSub "://".data j = false →
      (wd.isPrefixOf j = true ∨ ntJoin wd j = j)) :
    (normalize w j wd).cmd = j ∧ (normalize w j wd).workingDir = wd := by
  have hc : resolvedCmd w j = j := resolvedCmd_eq_self hm hh hq
  have hsj : startsWithStartCI (resolvedCmd w j) = false := by rw [hc]; exact hs
  have hss : startStripped (resolvedCmd w j) = resolvedCmd w j := by
    simp [startStripped, hsj]
  refine ⟨?_, by rw [normalize_workingDir]; exact hwd⟩
  by_cases hu : containsSub "://".data (startStripped (resolvedCmd w j)) = true
  · rw [normalize_uri hu]
    show (if containsSub "steam://".data (startStripped (resolvedCmd w j)) then _ else _) = j
    rw [hss, hc, hsteam]
    simp
  · have hu' : containsSub "://".data (startStripped (resolvedCmd w j)) = false :=
      Bool.eq_false_iff.mpr hu
    rw [normalize_not_uri hu']
    show (if (resolvedWd w wd).isPrefixOf (startStripped (resolvedCmd w j)) = true
          then _ else _) = j
    rw [hss, hc, hwd]
    have huj : containsSub "://".data j = false := by
      rw [hss, hc] at hu'
      exact hu'
    rcases hpre huj with hp | hp
    · rw [if_pos hp]
    · by_cases hb : wd.isPrefixOf j = true
      · rw [if_pos hb]
      · rw [if_neg hb]
        exact hp

/-- In the join case of the normalizer, a second pass over `ntJoin wd cmd`
leaves the command and the working directory unchanged. -/
theorem normalize_rejoin_fixed (w : Str → Str) (cmd wd : Str)
    (hmw : knownMatch wd = false)
    (hqw : ∀ c ∈ wd, c ≠ '"')
    (hlw : wd.getLast? ≠ some '\\')
    (hsw : startsWithStartCI wd = false)
    (hslash : '/' ∉ wd)
    (hhw : wd.head? ≠ some '\\')
    (hcol : wd.head? ≠ some ':')
    (hroot : (splitdrive wd).2 ≠ [] → (splitdrive wd).2.head? = some '\\')
    (hwne : wd ≠ [])
    (hqc : ∀ c ∈ cmd, c ≠ '"')
    (hhc : cmd.head? ≠ some '\\')
    (hsc : startsWithStartCI cmd = false)
    (hmc : knownMatch cmd = false)
    (huric : containsSub "://".data cmd = false) :
    (normalize w (ntJoin wd cmd) wd).cmd = ntJoin wd cmd ∧
    (normalize w (ntJoin wd cmd) wd).workingDir = wd := by
  have hwdres : resolvedWd w wd = wd := resolvedWd_eq_self hmw hlw hqw
  have hqj : ∀ c ∈ ntJoin wd cmd, c ≠ '"' := by
    intro c hc
    rcases mem_ntJoin hc with h | h | h
    · exact hqw c h
    · exact hqc c h
    · subst h; decide
  have hglslash : wd.getLast? ≠ some '/' := fun h => hslash (getLast?_mem h)
  have hnuri_cmd : ¬ "://".data <:+: cmd := not_infix_of_containsSub_false huric
  have hsteam_cmd : containsSub "steam://".data cmd = false :=
    not_containsSub_of_not_infix
      (fun h => hnuri_cmd ((show "://".data <:+: "steam://".data by decide).trans h))
  have hppsuf : (splitdrive cmd).2 <:+ cmd := ⟨(splitdrive cmd).1, splitdrive_append cmd⟩
  have hnuri_pp : ¬ "://".data <:+: (splitdrive cmd).2 :=
    fun h => hnuri_cmd (h.trans hppsuf.isInfix)
  have hwdhead : ∃ w0, wd.head? = some w0 := by
    cases wd with
    | nil => exact absurd rfl hwne
    | cons x xs => exact ⟨x, rfl⟩
  by_cases habs : (splitdrive cmd).2 ≠ [] ∧
      ((splitdrive cmd).2.head? = some '\\' ∨ (splitdrive cmd).2.head? = some '/')
  · -- second path is absolute
    by_cases hd : (splitdrive cmd).1 ≠ [] ∨ (splitdrive wd).1 = []
    · have hj : ntJoin wd cmd = cmd := ntJoin_absolute habs.1 habs.2 hd
      rw [hj]
      exact normalize_fixed_of w cmd wd hmc hqc hhc hsc hsteam_cmd hwdres
        (fun _ => Or.inr hj)
    · -- no drive on cmd, a drive on wd
      have hd1 : (splitdrive cmd).1 = [] := by
        by_cases h1 : (splitdrive cmd).1 = []
        · exact h1
        · exact absurd (Or.inl h1) hd
      have hd2 : (splitdrive wd).1 ≠ [] := by
        intro h2
        exact hd (Or.inr h2)
      rcases splitdrive_wd hhw hslash with hW0 | ⟨w0, rp, hwdeq, hW2⟩
      · exact absurd (by rw [hW0]) hd2
      · have hpp : (splitdrive cmd).2 = cmd := by
          have := splitdrive_append cmd
          rw [hd1] at this
          simpa using this
        have hch : cmd.head? = some '/' := by
          rcases habs.2 with h | h
          · rw [hpp] at h
            exact absurd h hhc
          · rw [hpp] at h
            exact h
        have hcne : cmd ≠ [] := by
          intro h
          rw [h] at hch
          simp at hch
        have hres : ntJoinRes wd cmd = ([w0, ':'], cmd) := by
          unfold ntJoinRes
          rw [if_pos habs, if_neg hd, hW2, hpp]
        have hj : ntJoin wd cmd = w0 :: ':' :: cmd := by
          unfold ntJoin
          rw [hres, if_neg (by
            rintro ⟨-, -, c3, -, -⟩
            exact c3 hch)]
          rfl
        have hw0 : w0 ∈ wd := by
          rw [hwdeq]
          exact List.mem_cons_self _ _
        have hw0col : w0 ≠ ':' := by
          intro h
          rw [hwdeq, h] at hcol
          exact hcol rfl
        have hw0bs : w0 ≠ '\\' := by
          intro h
          rw [hwdeq, h] at hhw
          exact hhw rfl
        rw [hj]
        refine normalize_fixed_of w (w0 :: ':' :: cmd) wd ?_ (hj ▸ hqj) ?_
          (not_startCI_two_colon w0 cmd) ?_ hwdres ?_
        · exact knownMatch_false_of_head (by
            rw [List.head?_cons]
            intro h
            exact hw0col (Option.some.injEq _ _ ▸ h))
        · rw [List.head?_cons]
          intro h
          exact hw0bs (Option.some.injEq _ _ ▸ h)
        · exact not_containsSub_of_not_infix (steam_not_infix_two_cons hnuri_cmd)
        · intro _
          refine Or.inr (ntJoin_absolute ?_ ?_ ?_)
          · rw [splitdrive_drive_letter]
            exact hcne
          · rw [splitdrive_drive_letter]
            exact Or.inr hch
          · rw [splitdrive_drive_letter]
            exact Or.inl (by simp)
  · -- second path is not absolute
    have hnabs2 : (splitdrive cmd).2 ≠ [] →
        (splitdrive cmd).2.head? ≠ some '\\' ∧ (splitdrive cmd).2.head? ≠ some '/' := by
      intro hne
      constructor
      · intro h; exact habs ⟨hne, Or.inl h⟩
      · intro h; exact habs ⟨hne, Or.inr h⟩
    by_cases hdd : (splitdrive cmd).1 ≠ [] ∧ (splitdrive cmd).1 ≠ (splitdrive wd).1
    · by_cases hlow : pyLower (splitdrive cmd).1 ≠ pyLower (splitdrive wd).1
      · -- different drives: the first path is ignored entirely
        have hres : ntJoinRes wd cmd = ((splitdrive cmd).1, (splitdrive cmd).2) := by
          unfold ntJoinRes
          rw [if_neg habs, if_pos hdd, if_pos hlow]
        have hnoins : ¬((splitdrive cmd).2 ≠ [] ∧
            (splitdrive cmd).2.head? ≠ some '\\' ∧ (splitdrive cmd).2.head? ≠ some '/' ∧
            (splitdrive cmd).1 ≠ [] ∧ (splitdrive cmd).1.getLast? ≠ some ':') := by
          rcases splitdrive_cases cmd with hC | ⟨c0, pp', hceq, hCd⟩ | ⟨-, -, -, hC4⟩
          · exact fun _ => hdd.1 (by rw [hC])
          · rintro ⟨-, -, -, -, c5⟩
            exact c5 (by rw [hCd]; rfl)
          · rintro ⟨c1, c2, c3, -, -⟩
            rcases hC4 with h | h | h
            · exact c1 h
            · exact c3 h
            · exact c2 h
        have hj : ntJoin wd cmd = cmd := by
          unfold ntJoin
          rw [hres, if_neg hnoins]
          exact splitdrive_append cmd
        rw [hj]
        exact normalize_fixed_of w cmd wd hmc hqc hhc hsc hsteam_cmd hwdres
          (fun _ => Or.inr hj)
      · -- same drive in different case
        have hloweq : pyLower (splitdrive cmd).1 = pyLower (splitdrive wd).1 :=
          not_ne_iff.mp hlow
        rcases splitdrive_wd hhw hslash with hW0 | ⟨w0, rp, hwdeq, hW2⟩
        · exfalso
          rw [hW0] at hloweq
          have : (splitdrive cmd).1 = [] := by
            have := congrArg List.length hloweq
            simp only [pyLower, List.length_map, List.length_nil] at this
            exact List.length_eq_zero.mp this
          exact hdd.1 this
        · rcases splitdrive_cases cmd with hC | ⟨c0, pp', hceq, hCd⟩ | ⟨-, hC2, -, -⟩
          · exact absurd (by rw [hC]) hdd.1
          · -- cmd has a two-character drive [c0, ':']
            have hlw0 : Char.toLower c0 = Char.toLower w0 := by
              rw [hCd, hW2] at hloweq
              simp only [pyLower, List.map_cons, List.map_nil, List.cons.injEq] at hloweq
              exact hloweq.1
            have hw0col : w0 ≠ ':' := by
              intro h
              rw [hwdeq, h] at hcol
              exact hcol rfl
            have hw0bs : w0 ≠ '\\' := by
              intro h
              rw [hwdeq, h] at hhw
              exact hhw rfl
            have hc0col : c0 ≠ ':' := by
              intro h
              rw [h] at hlw0
              have : w0 = ':' := eq_of_toLower_eq (by decide) (by
                rw [← hlw0]; decide)
              exact hw0col this
            have hc0bs : c0 ≠ '\\' := by
              intro h
              rw [h] at hlw0
              have : w0 = '\\' := eq_of_toLower_eq (by decide) (by
                rw [← hlw0]; decide)
              exact hw0bs this
            have hc0mem : c0 ∈ cmd := by
              rw [hceq]
              exact List.mem_cons_self _ _
            have hpp'sub : ∀ c ∈ pp', c ∈ cmd := by
              intro c hc
              rw [hceq]
              exact List.mem_cons_of_mem _ (List.mem_cons_of_mem _ hc)
            have hpp'suf : pp' <:+ cmd := ⟨[c0, ':'], hceq.symm⟩
            have hnuri_pp' : ¬ "://".data <:+: pp' :=
              fun h => hnuri_cmd (h.trans hpp'suf.isInfix)
            by_cases hrp : rp = []
            · -- the working directory is a bare drive: result is cmd itself
              have hres : ntJoinRes wd cmd = ([c0, ':'], pp') := by
                unfold ntJoinRes
                rw [if_neg habs, if_pos hdd, if_neg hlow, hW2, hCd, hrp, appendRel_nil]
              have hj : ntJoin wd cmd = cmd := by
                unfold ntJoin
                rw [hres, if_neg (by
                  rintro ⟨-, -, -, -, c5⟩
                  exact c5 rfl)]
                rw [hceq]
                rfl
              rw [hj]
              exact normalize_fixed_of w cmd wd hmc hqc hhc hsc hsteam_cmd hwdres
                (fun _ => Or.inr hj)
            · -- B3b: result is c0 :: ':' :: (rp ++ '\\' :: pp')
              have hrpw : (splitdrive wd).2 = rp := by rw [hW2]
              have hrphead : rp.head? = some '\\' := by
                have := hroot (by rw [hrpw]; exact hrp)
                rwa [hrpw] at this
              have hrplast : wd.getLast? = rp.getLast? := by
                rw [hwdeq]
                exact List.getLast?_append_of_ne_nil [w0, ':'] hrp
              have hrpsub : ∀ c ∈ rp, c ∈ wd := by
                intro c hc
                rw [hwdeq]
                exact List.mem_cons_of_mem _ (List.mem_cons_of_mem _ hc)
              have hrpslash : '/' ∉ rp := fun h => hslash (hrpsub _ h)
              have happr : appendRel rp pp' = rp ++ '\\' :: pp' :=
                appendRel_pos hrp (by rw [← hrplast]; exact hlw)
                  (by rw [← hrplast]; exact hglslash)
              have hres : ntJoinRes wd cmd = ([c0, ':'], rp ++ '\\' :: pp') := by
                unfold ntJoinRes
                rw [if_neg habs, if_pos hdd, if_neg hlow, hW2, hCd]
                rw [show ([c0, ':'], pp').2 = pp' from rfl,
                    show ([w0, ':'], rp).2 = rp from rfl, happr]
              have hrpne : rp ++ '\\' :: pp' ≠ [] := by simp
              have hrpbh : (rp ++ '\\' :: pp').head? = some '\\' := by
                rw [head?_append_of_ne_nil hrp]
                exact hrphead
              have hj : ntJoin wd cmd = c0 :: ':' :: (rp ++ '\\' :: pp') := by
                unfold ntJoin
                rw [hres, if_neg (by
                  rintro ⟨-, c2, -, -, -⟩
                  exact c2 hrpbh)]
                rfl
              rw [hj]
              refine normalize_fixed_of w _ wd ?_ (hj ▸ hqj) ?_
                (not_startCI_two_colon c0 _) ?_ hwdres ?_
              · exact knownMatch_false_of_head (by
                  rw [List.head?_cons]
                  intro h
                  exact hc0col (Option.some.injEq _ _ ▸ h))
              · rw [List.head?_cons]
                intro h
                exact hc0bs (Option.some.injEq _ _ ▸ h)
              · exact not_containsSub_of_not_infix (steam_not_infix_two_cons
                  (uri_not_infix_append_cons hrpslash hnuri_pp'))
              · intro _
                refine Or.inr (ntJoin_absolute ?_ ?_ ?_)
                · rw [splitdrive_drive_letter]
                  exact hrpne
                · rw [splitdrive_drive_letter]
                  exact Or.inl hrpbh
                · rw [splitdrive_drive_letter]
                  exact Or.inl (by simp)
          · -- a UNC drive cannot compare case-equal to a drive-letter drive
            exfalso
            rw [hW2] at hloweq
            have hL : (pyLower (splitdrive cmd).1).get? 1 = some ':' := by
              rw [hloweq]
              rfl
            have hR : (pyLower (splitdrive cmd).1).get? 1 =
                ((splitdrive cmd).1.get? 1).map Char.toLower := by
              unfold pyLower
              exact List.get?_map _ _ _
            rw [hR] at hL
            rcases hC2 with h | h
            · rw [h] at hL
              exact absurd hL (by decide)
            · rw [h] at hL
              exact absurd hL (by decide)
    · -- relative: the command has no drive, or the same drive as wd
      have hres : ntJoinRes wd cmd =
          ((splitdrive wd).1, appendRel (splitdrive wd).2 (splitdrive cmd).2) := by
        unfold ntJoinRes
        rw [if_neg habs, if_neg hdd]
      rcases splitdrive_wd hhw hslash with hW0 | ⟨w0, rp, hwdeq, hW2⟩
      · -- wd has no drive: result is wd ++ '\\' :: cmd
        have hpd : (splitdrive cmd).1 = [] := by
          by_cases h1 : (splitdrive cmd).1 = []
          · exact h1
          · exfalso
            apply hdd
            refine ⟨h1, ?_⟩
            rw [hW0]
            intro h2
            exact h1 h2
        have hpp : (splitdrive cmd).2 = cmd := by
          have := splitdrive_append cmd
          rw [hpd] at this
          simpa using this
        have hj : ntJoin wd cmd = wd ++ '\\' :: cmd := by
          unfold ntJoin
          rw [hres, hW0, hpp,
            show (([] : Str), wd).2 = wd from rfl,
            show (([] : Str), wd).1 = [] from rfl,
            appendRel_pos hwne hlw hglslash,
            if_neg (by rintro ⟨-, -, -, c4, -⟩; exact c4 rfl)]
          rfl
        rw [hj]
        refine normalize_fixed_of w _ wd ?_ (hj ▸ hqj) ?_
          (not_startCI_append_sep cmd hsw) ?_ hwdres ?_
        · exact knownMatch_false_of_head (by
            rw [head?_append_of_ne_nil hwne]
            exact hcol)
        · rw [head?_append_of_ne_nil hwne]
          exact hhw
        · exact not_containsSub_of_not_infix
            (steam_not_infix_append_cons hslash hnuri_cmd)
        · intro _
          exact Or.inl (isPrefixOf_append_self wd ('\\' :: cmd))
      · -- wd = [w0, ':'] ++ rp
        by_cases hrp : rp = []
        · -- wd is a bare drive [w0, ':']
          have hwd2 : wd = [w0, ':'] := by rw [hwdeq, hrp]
          have happr : appendRel (splitdrive wd).2 (splitdrive cmd).2 =
              (splitdrive cmd).2 := by
            rw [hW2, show ([w0, ':'], rp).2 = rp from rfl, hrp, appendRel_nil]
          by_cases hpp0 : (splitdrive cmd).2 = []
          · -- empty path part: the result is wd itself
            have hj : ntJoin wd cmd = wd := by
              unfold ntJoin
              rw [hres, happr, hpp0, hW2,
                if_neg (by rintro ⟨c1, -, -, -, -⟩; exact c1 rfl)]
              rw [hwd2]
              rfl
            rw [hj]
            refine normalize_fixed_of w wd wd
              (knownMatch_false_of_head hcol) hqw hhw hsw ?_ hwdres ?_
            · exact not_containsSub_of_not_infix (steam_not_infix_of_no_slash hslash)
            · intro _
              exact Or.inl (List.isPrefixOf_iff_prefix.mpr (List.prefix_refl wd))
          · -- result is [w0, ':'] ++ pp
            have hj : ntJoin wd cmd = w0 :: ':' :: (splitdrive cmd).2 := by
              unfold ntJoin
              rw [hres, happr, hW2,
                if_neg (by rintro ⟨-, -, -, -, c5⟩; exact c5 rfl)]
              rfl
            have hppsub : ∀ c ∈ (splitdrive cmd).2, c ∈ cmd :=
              fun _ => mem_splitdrive_snd
            rw [hj]
            refine normalize_fixed_of w _ wd ?_ (hj ▸ hqj) ?_
              (not_startCI_two_colon w0 _) ?_ hwdres ?_
            · exact knownMatch_false_of_head (by
                rw [List.head?_cons]
                intro h
                have : w0 = ':' := Option.some.injEq _ _ ▸ h
                rw [hwdeq, this] at hcol
                exact hcol rfl)
            · rw [List.head?_cons]
              intro h
              have : w0 = '\\' := Option.some.injEq _ _ ▸ h
              rw [hwdeq, this] at hhw
              exact hhw rfl
            · exact not_containsSub_of_not_infix
                (steam_not_infix_two_cons hnuri_pp)
            · intro _
              refine Or.inl ?_
              have : w0 :: ':' :: (splitdrive cmd).2 = wd ++ (splitdrive cmd).2 := by
                rw [hwd2]
                rfl
              rw [this]
              exact isPrefixOf_append_self wd _
        · -- rooted path part: the result is wd ++ '\\' :: pp
          have hrpw : (splitdrive wd).2 = rp := by rw [hW2]
          have hrphead : rp.head? = some '\\' := by
            have := hroot (by rw [hrpw]; exact hrp)
            rwa [hrpw] at this
          have hrplast : wd.getLast? = rp.getLast? := by
            rw [hwdeq]
            exact List.getLast?_append_of_ne_nil [w0, ':'] hrp
          have happr : appendRel rp (splitdrive cmd).2 =
              rp ++ '\\' :: (splitdrive cmd).2 :=
            appendRel_pos hrp (by rw [← hrplast]; exact hlw)
              (by rw [← hrplast]; exact hglslash)
          have hrpbh : (rp ++ '\\' :: (splitdrive cmd).2).head? = some '\\' := by
            rw [head?_append_of_ne_nil hrp]
            exact hrphead
          have hj : ntJoin wd cmd = wd ++ '\\' :: (splitdrive cmd).2 := by
            unfold ntJoin
            rw [hres, hW2, show ([w0, ':'], rp).2 = rp from rfl, happr,
              if_neg (by rintro ⟨-, c2, -, -, -⟩; exact c2 hrpbh)]
            rw [hwdeq]
            rfl
          rw [hj]
          refine normalize_fixed_of w _ wd ?_ (hj ▸ hqj) ?_
            (not_startCI_append_sep _ hsw) ?_ hwdres ?_
          · exact knownMatch_false_of_head (by
              rw [head?_append_of_ne_nil hwne]
              exact hcol)
          · rw [head?_append_of_ne_nil hwne]
            exact hhw
          · exact not_containsSub_of_not_infix
              (steam_not_infix_append_cons hslash hnuri_pp)
          · intro _
            exact Or.inl (isPrefixOf_append_self wd _)

/-- Claim C4, counterexample.  The normalizer is not idempotent even on
already-resolved, already-unquoted, already-trimmed inputs: the command
`steam://rungameid/12345` (no symbolic prefix, no quotes, no leading
separator) receives the `steam ` prefix on the first pass, and lines 271-272
test `'steam://' in cmd` by containment, so the second pass prepends
`steam ` again and the command changes. -/
theorem claim4_counterexample :
    knownMatch "steam://rungameid/12345".data = false ∧
    (∀ c ∈ "steam://rungameid/12345".data, c ≠ '"') ∧
    "steam://rungameid/12345".data.head? ≠ some '\\' ∧
    ¬ ((normalize (fun s => s)
          (normalize (fun s => s) "steam://rungameid/12345".data []).cmd
          (normalize (fun s => s) "steam://rungameid/12345".data []).workingDir).cmd =
        (normalize (fun s => s) "steam://rungameid/12345".data []).cmd) := by
  decide

/-- Claim C4, amended.  The normalizer is idempotent (on the working
directory and the command) on already-resolved, already-unquoted,
already-trimmed inputs, provided additionally that the command contains no
`steam://` substring, neither string begins case-insensitively with
`start`, the working directory is drive-rooted without forward slashes,
and neither input re-triggers the symbolic-prefix pattern. -/
theorem claim4_amended (w : Str → Str) (cmd wd : Str)
    (hmw : knownMatch wd = false)
    (hmc : knownMatch cmd = false)
    (hqw : ∀ c ∈ wd, c ≠ '"')
    (hqc : ∀ c ∈ cmd, c ≠ '"')
    (hlw : wd.getLast? ≠ some '\\')
    (hhc : cmd.head? ≠ some '\\')
    (hsw : startsWithStartCI wd = false)
    (hsc : startsWithStartCI cmd = false)
    (hsteam : containsSub "steam://".data cmd = false)
    (hslash : '/' ∉ wd)
    (hhw : wd.head? ≠ some '\\')
    (hcol : wd.head? ≠ some ':')
    (hroot : (splitdrive wd).2 ≠ [] → (splitdrive wd).2.head? = some '\\') :
    (normalize w (normalize w cmd wd).cmd (normalize w cmd wd).workingDir).cmd =
      (normalize w cmd wd).cmd ∧
    (normalize w (normalize w cmd wd).cmd (normalize w cmd wd).workingDir).workingDir =
      (normalize w cmd wd).workingDir := by
  have hwdres : resolvedWd w wd = wd := resolvedWd_eq_self hmw hlw hqw
  have hcres : resolvedCmd w cmd = cmd := resolvedCmd_eq_self hmc hhc hqc
  have hss : startStripped (resolvedCmd w cmd) = cmd := by
    rw [hcres]
    simp [startStripped, hsc]
  by_cases huri : containsSub "://".data cmd = true
  · -- URI branch: the first pass leaves the command unchanged
    have huri2 : containsSub "://".data (startStripped (resolvedCmd w cmd)) = true := by
      rw [hss]; exact huri
    have hsteam2 : containsSub "steam://".data (startStripped (resolvedCmd w cmd)) =
        false := by
      rw [hss]; exact hsteam
    have h1 : normalize w cmd wd = ⟨wd, cmd, true⟩ := by
      rw [normalize_uri huri2, hwdres,
        if_neg (by rw [hsteam2]; exact Bool.false_ne_true), hss]
    rw [h1]
    show (normalize w cmd wd).cmd = cmd ∧ (normalize w cmd wd).workingDir = wd
    rw [h1]
    exact ⟨rfl, rfl⟩
  · have huric : containsSub "://".data cmd = false := Bool.eq_false_iff.mpr huri
    have huri2 : containsSub "://".data (startStripped (resolvedCmd w cmd)) =
        false := by
      rw [hss]; exact huric
    by_cases hpre : wd.isPrefixOf cmd = true
    · -- the command already starts with the working directory: no join
      have h1 : normalize w cmd wd = ⟨wd, cmd, false⟩ := by
        rw [normalize_not_uri huri2, hwdres, hss, if_pos hpre, hcres, hsc]
      rw [h1]
      show (normalize w cmd wd).cmd = cmd ∧ (normalize w cmd wd).workingDir = wd
      exact normalize_fixed_of w cmd wd hmc hqc hhc hsc hsteam hwdres
        (fun _ => Or.inl hpre)
    · -- join branch
      have hwne : wd ≠ [] := by
        intro h
        rw [h] at hpre
        exact hpre (by cases cmd <;> rfl)
      have h1 : normalize w cmd wd = ⟨wd, ntJoin wd cmd, false⟩ := by
        rw [normalize_not_uri huri2, hwdres, hss, if_neg hpre, hcres, hsc]
      rw [h1]
      show (normalize w (ntJoin wd cmd) wd).cmd = ntJoin wd cmd ∧
        (normalize w (ntJoin wd cmd) wd).workingDir = wd
      exact normalize_rejoin_fixed w cmd wd hmw hqw hlw hsw hslash hhw hcol hroot
        hwne hqc hhc hsc hmc huric

/-- Claim C4, witness: working directory `C:\Games` and command
`Foo\game.exe` satisfy all the hypotheses and exercise the join branch. -/
theorem claim4_amended_witness :
    (normalize (fun s => s)
        (normalize (fun s => s) "Foo\\game.exe".data "C:\\Games".data).cmd
        (normalize (fun s => s) "Foo\\game.exe".data "C:\\Games".data).workingDir).cmd =
      (normalize (fun s => s) "Foo\\game.exe".data "C:\\Games".data).cmd ∧
    (normalize (fun s => s)
        (normalize (fun s => s) "Foo\\game.exe".data "C:\\Games".data).cmd
        (normalize (fun s => s) "Foo\\game.exe".data "C:\\Games".data).workingDir).workingDir =
      (normalize (fun s => s) "Foo\\game.exe".data "C:\\Games".data).workingDir :=
  claim4_amended (fun s => s) "Foo\\game.exe".data "C:\\Games".data
    (by decide) (by decide) (by decide) (by decide) (by decide) (by decide)
    (by decide) (by decide) (by decide) (by decide) (by decide) (by decide)
    (by decide)

end GSMS
